import Mathlib

/-!
Verification of the Neutreeko engine against its specification.

The Rust sources are modelled shallowly: `usize` becomes `Nat`, `isize`
becomes `Int` (with the `isize::MIN`/`isize::MAX` constants kept explicit
where the code uses them), `Vec` becomes `List`, and fallible operations
(Rust panics: out-of-range indexing, `unwrap`) return `Option`, with `none`
marking the panic.
-/

namespace Neutreeko

/-- Pawn colors (logic.rs `Color`). -/
inductive Color where
  | Yellow : Color
  | Green : Color
deriving DecidableEq, Repr

/-- Rust `Color::other_color`. -/
def Color.other_color : Color → Color
  | Color.Green => Color.Yellow
  | Color.Yellow => Color.Green

/-- Board coordinates (logic.rs `Position`); `usize` is modelled as `Nat`. -/
structure Position where
  row : Nat
  column : Nat
deriving DecidableEq, Repr

/-- logic.rs `Pawn`. -/
structure Pawn where
  color : Color
  position : Position
deriving DecidableEq, Repr

/-- logic.rs `Board`. -/
structure Board where
  number_of_rows : Nat
  number_of_columns : Nat
  pawns : List Pawn
  next_player : Option Color
deriving DecidableEq, Repr

/-- logic.rs `Direction`, in declaration order (= strum `EnumIter` order). -/
inductive Direction where
  | Up | Down | Left | Right | UpLeft | UpRight | DownLeft | DownRight
deriving DecidableEq, Repr

/-- The (row, column) increments chosen by the `match direction` block of
`Board::move_pawn_until_blocked`. -/
def Direction.increments : Direction → Int × Int
  | .Up => (-1, 0)
  | .Down => (1, 0)
  | .Left => (0, -1)
  | .Right => (0, 1)
  | .UpLeft => (-1, -1)
  | .UpRight => (-1, 1)
  | .DownLeft => (1, -1)
  | .DownRight => (1, 1)

/-- The `Direction::iter()` order used by `get_valid_directions_and_resulting_boards`. -/
def allDirections : List Direction :=
  [.Up, .Down, .Left, .Right, .UpLeft, .UpRight, .DownLeft, .DownRight]

/-- Rust `Board::is_valid`: every pawn within bounds and no two pawns on the same
position (the Rust loop exits early, but its boolean result is exactly this
conjunction). -/
def Board.is_valid (b : Board) : Bool :=
  (b.pawns.all fun p =>
    decide (p.position.row < b.number_of_rows) &&
    decide (p.position.column < b.number_of_columns)) &&
  decide (b.pawns.map Pawn.position).Nodup

/-- The value of a `usize` coordinate after Rust's `as i8` narrowing
(two's-complement truncation). -/
def i8val (n : Nat) : Int := Int.bmod (n : Int) 256

/-- Wrapping `i8` subtraction (release-mode semantics of `a - b` on `i8`). -/
def sub8 (a b : Int) : Int := Int.bmod (a - b) 256

/-- Stable ascending sort of three positions by `row`, matching Rust's stable
`positions.sort_by(|a, b| a.row.cmp(&b.row))` on a three-element vector. -/
def sort3ByRow (a b c : Position) : Position × Position × Position :=
  if a.row ≤ b.row then
    if b.row ≤ c.row then (a, b, c)
    else if a.row ≤ c.row then (a, c, b)
    else (c, a, b)
  else
    if a.row ≤ c.row then (b, a, c)
    else if b.row ≤ c.row then (b, c, a)
    else (c, b, a)

/-- Ascending sort of the three `i8` column values (`cols.sort()`). -/
def sort3Int (a b c : Int) : Int × Int × Int :=
  if a ≤ b then
    if b ≤ c then (a, b, c)
    else if a ≤ c then (a, c, b)
    else (c, a, b)
  else
    if a ≤ c then (b, a, c)
    else if b ≤ c then (b, c, a)
    else (c, b, a)

/-- logic.rs `aligned_positions`.  The Rust function panics unless given exactly
three positions (`none` here).  Coordinates are narrowed with `as i8`
(`i8val`) and the `i8` subtractions wrap (`sub8`). -/
def aligned_positions (positions_in : List Position) : Option Bool :=
  match positions_in with
  | [p1, p2, p3] =>
    let s := sort3ByRow p1 p2 p3
    let c1 := i8val s.1.column
    let c2 := i8val s.2.1.column
    let c3 := i8val s.2.2.column
    let r1 := i8val s.1.row
    let r2 := i8val s.2.1.row
    let r3 := i8val s.2.2.row
    let sc := sort3Int c1 c2 c3
    let same_row := r1 = r2 ∧ r2 = r3
    let same_column := c1 = c2 ∧ c2 = c3
    let adjacent_rows := sub8 r3 r2 = 1 ∧ sub8 r2 r1 = 1
    let adjacent_columns := sub8 sc.2.2 sc.2.1 = 1 ∧ sub8 sc.2.1 sc.1 = 1
    let diagonal := adjacent_rows ∧
      ((sub8 c3 c2 = 1 ∧ sub8 c2 c1 = 1) ∨ (sub8 c3 c2 = -1 ∧ sub8 c2 c1 = -1))
    some (decide ((same_row ∧ adjacent_columns) ∨ (same_column ∧ adjacent_rows) ∨ diagonal))
  | _ => none

/-- The positions of `b`'s green pawns, in pawn order (the collection loop of
`Board::winner`). -/
def Board.green_positions (b : Board) : List Position :=
  (b.pawns.filter fun p => p.color == Color.Green).map Pawn.position

/-- The positions of `b`'s yellow pawns, in pawn order. -/
def Board.yellow_positions (b : Board) : List Position :=
  (b.pawns.filter fun p => p.color == Color.Yellow).map Pawn.position

/-- Rust `Board::winner`.  The outer `Option` is `none` when the Rust code would
panic inside `aligned_positions` (a color not owning exactly three pawns);
green is checked before yellow, exactly as in the source. -/
def Board.winner (b : Board) : Option (Option Color) :=
  if !b.is_valid then some none
  else do
    let g ← aligned_positions b.green_positions
    if g then pure (some Color.Green)
    else do
      let y ← aligned_positions b.yellow_positions
      if y then pure (some Color.Yellow) else pure none

/-- Rust `Board::move_pawn`: one single-cell step.  `none` models the panic of the
`self.pawns[pawn_index]` indexing when `pawn_index` is out of range; otherwise
the Rust `bool` is returned together with the (possibly reverted) board. -/
def Board.move_pawn (b : Board) (pawn_index : Nat) (row_increment column_increment : Int) :
    Option (Bool × Board) :=
  match b.pawns.get? pawn_index with
  | none => none
  | some pawn =>
    let final_row : Int := (pawn.position.row : Int) + row_increment
    let final_column : Int := (pawn.position.column : Int) + column_increment
    if final_row < 0 ∨ (b.number_of_rows : Int) ≤ final_row ∨
        final_column < 0 ∨ (b.number_of_columns : Int) ≤ final_column then
      some (false, b)
    else
      let new_pawn : Pawn := { pawn with position := ⟨final_row.toNat, final_column.toNat⟩ }
      let moved : Board := { b with pawns := b.pawns.set pawn_index new_pawn }
      if moved.is_valid then some (true, moved) else some (false, b)

/-- The `loop` of `Board::move_pawn_until_blocked`, with explicit fuel.
`number_of_rows + number_of_columns + 1` fuel is always sufficient
(`slideLoop_isSome` below), so the `fuel = 0` case is unreachable from
`move_pawn_until_blocked`; `none` otherwise only propagates the index panic
of `move_pawn`. -/
def slideLoop (fuel : Nat) (b : Board) (pawn_index : Nat) (dir : Direction)
    (has_moved : Bool) : Option (Bool × Board) :=
  match fuel with
  | 0 => none
  | fuel' + 1 =>
    match b.move_pawn pawn_index dir.increments.1 dir.increments.2 with
    | none => none
    | some (false, _) => some (has_moved, b)
    | some (true, b') => slideLoop fuel' b' pawn_index dir true

/-- Rust `Board::move_pawn_until_blocked` (the commit operation: turn check, slide
until blocked, then winner check and `next_player` update).  `none` models a
panic (out-of-range pawn index, or `winner` panicking). -/
def Board.move_pawn_until_blocked (b : Board) (pawn_index : Nat) (dir : Direction) :
    Option (Bool × Board) :=
  match b.next_player with
  | none => some (false, b)
  | some color =>
    match b.pawns.get? pawn_index with
    | none => none
    | some pawn =>
      if pawn.color ≠ color then some (false, b)
      else
        match slideLoop (b.number_of_rows + b.number_of_columns + 1) b pawn_index dir false with
        | none => none
        | some (false, b₂) => some (false, b₂)
        | some (true, b₂) =>
          match b₂.winner with
          | none => none
          | some (some _) => some (true, { b₂ with next_player := none })
          | some none =>
            some (true, { b₂ with next_player := b₂.next_player.map Color.other_color })

/-- Rust `Board::get_valid_directions_and_resulting_boards` for one pawn: try the
eight directions in `Direction::iter()` order on a copy, keeping those whose
slide returns `true`. -/
def Board.get_valid_directions_and_resulting_boards (b : Board) (pawn_index : Nat) :
    Option (List (Direction × Board)) := do
  let results ← allDirections.mapM fun dir => do
    let r ← b.move_pawn_until_blocked pawn_index dir
    pure (dir, r)
  pure (results.filterMap fun r => if r.2.1 then some (r.1, r.2.2) else none)

/-- Rust `Board::get_all_valid_directions_and_resulting_boards`: union over the
pawns of `next_player`'s color, in pawn-index order. -/
def Board.get_all_valid_directions_and_resulting_boards (b : Board) :
    Option (List (Nat × Direction × Board)) := do
  let lists ← b.pawns.enum.mapM fun ip =>
    if some ip.2.color ≠ b.next_player then pure []
    else do
      let ds ← b.get_valid_directions_and_resulting_boards ip.1
      pure (ds.map fun d => (ip.1, d.1, d.2))
  pure lists.flatten

/-- Rust `Board::default_new`: the canonical 5×5 starting position (its
`Board::new` validity panic cannot fire since the starting board is valid). -/
def defaultBoard : Board :=
  { number_of_rows := 5, number_of_columns := 5,
    pawns := [⟨Color.Green, ⟨0, 1⟩⟩, ⟨Color.Green, ⟨0, 3⟩⟩, ⟨Color.Green, ⟨3, 2⟩⟩,
              ⟨Color.Yellow, ⟨1, 2⟩⟩, ⟨Color.Yellow, ⟨4, 1⟩⟩, ⟨Color.Yellow, ⟨4, 3⟩⟩],
    next_player := some Color.Green }

/-! ### Helper notions for reasoning about slides -/

/-- The positions of the pawns other than `pawn_index`, in pawn order. -/
def othersPositions (b : Board) (pawn_index : Nat) : List Position :=
  (b.pawns.eraseIdx pawn_index).map Pawn.position

/-- The part of `is_valid` that a move of pawn `pawn_index` can never change:
all other pawns are in bounds and pairwise distinct. -/
def othersOK (b : Board) (pawn_index : Nat) : Prop :=
  (∀ q ∈ othersPositions b pawn_index,
    q.row < b.number_of_rows ∧ q.column < b.number_of_columns) ∧
  (othersPositions b pawn_index).Nodup

instance (b : Board) (i : Nat) : Decidable (othersOK b i) := by
  unfold othersOK; infer_instance

/-- The integer cell reached after `t` single steps in direction `dir` from
`start`. -/
def stepTarget (start : Position) (dir : Direction) (t : Nat) : Int × Int :=
  ((start.row : Int) + t * dir.increments.1, (start.column : Int) + t * dir.increments.2)

/-- The `Position` reached after `t` steps (meaningful when `stepTarget` is in
bounds). -/
def stepPosition (start : Position) (dir : Direction) (t : Nat) : Position :=
  ⟨(stepTarget start dir t).1.toNat, (stepTarget start dir t).2.toNat⟩

/-- Step number `t` (counting from 1) of a slide of pawn `pawn_index` from
`start` in direction `dir` is legal: the reached cell is in bounds and is not
occupied by another pawn. -/
def stepOK (b : Board) (pawn_index : Nat) (start : Position) (dir : Direction) (t : Nat) : Prop :=
  0 ≤ (stepTarget start dir t).1 ∧ (stepTarget start dir t).1 < (b.number_of_rows : Int) ∧
  0 ≤ (stepTarget start dir t).2 ∧ (stepTarget start dir t).2 < (b.number_of_columns : Int) ∧
  stepPosition start dir t ∉ othersPositions b pawn_index

instance (b : Board) (i : Nat) (s : Position) (dir : Direction) (t : Nat) :
    Decidable (stepOK b i s dir t) := by
  unfold stepOK; infer_instance

theorem stepPosition_zero (start : Position) (dir : Direction) :
    stepPosition start dir 0 = start := by
  simp [stepPosition, stepTarget]

theorem is_valid_iff (b : Board) : b.is_valid = true ↔
    ((∀ p ∈ b.pawns, p.position.row < b.number_of_rows ∧
        p.position.column < b.number_of_columns) ∧
      (b.pawns.map Pawn.position).Nodup) := by
  simp [Board.is_valid, List.all_eq_true]

theorem set_perm_cons_eraseIdx {α : Type} {l : List α} {i : Nat} (h : i < l.length) (a : α) :
    (l.set i a).Perm (a :: l.eraseIdx i) := by
  rw [List.set_eq_take_cons_drop a h, List.eraseIdx_eq_take_drop_succ]
  exact List.perm_middle

theorem eraseIdx_set {α : Type} (l : List α) (i : Nat) (a : α) :
    (l.set i a).eraseIdx i = l.eraseIdx i := by
  induction l generalizing i with
  | nil => simp
  | cons x xs ih =>
    cases i with
    | zero => simp
    | succ n => simp [ih]

/-- The board `b` with pawn `i` replaced by `a` (the shape of the board built
inside `move_pawn`). -/
def setPawn (b : Board) (i : Nat) (a : Pawn) : Board :=
  { b with pawns := b.pawns.set i a }

/-- The pawn `p` displaced by one `(ri, ci)` step, as stored by `move_pawn`. -/
def slideStepPawn (p : Pawn) (ri ci : Int) : Pawn :=
  ⟨p.color, ⟨((p.position.row : Int) + ri).toNat, ((p.position.column : Int) + ci).toNat⟩⟩

theorem othersPositions_set (b : Board) (i : Nat) (a : Pawn) :
    othersPositions (setPawn b i a) i = othersPositions b i := by
  simp [othersPositions, setPawn, eraseIdx_set]

theorem othersOK_set (b : Board) (i : Nat) (a : Pawn) :
    othersOK (setPawn b i a) i ↔ othersOK b i := by
  unfold othersOK
  rw [othersPositions_set]
  exact Iff.rfl

theorem is_valid_set_iff (b : Board) (i : Nat) (a : Pawn) (h : i < b.pawns.length) :
    Board.is_valid (setPawn b i a) = true ↔
      (a.position.row < b.number_of_rows ∧ a.position.column < b.number_of_columns ∧
        a.position ∉ othersPositions b i ∧ othersOK b i) := by
  have hperm := set_perm_cons_eraseIdx h a
  have hmem : ∀ P : Pawn → Prop,
      ((∀ p ∈ b.pawns.set i a, P p) ↔ (P a ∧ ∀ p ∈ b.pawns.eraseIdx i, P p)) := by
    intro P
    constructor
    · intro hp
      exact ⟨hp a (hperm.mem_iff.2 (List.mem_cons_self _ _)),
        fun p hq => hp p (hperm.mem_iff.2 (List.mem_cons_of_mem _ hq))⟩
    · rintro ⟨ha, hrest⟩ p hp
      rcases List.mem_cons.1 (hperm.mem_iff.1 hp) with h1 | h2
      · exact h1 ▸ ha
      · exact hrest p h2
  have hnodup : ((b.pawns.set i a).map Pawn.position).Nodup ↔
      (a.position ∉ othersPositions b i ∧ (othersPositions b i).Nodup) := by
    rw [(hperm.map Pawn.position).nodup_iff]
    simp [othersPositions, List.nodup_cons]
  rw [is_valid_iff]
  show ((∀ p ∈ b.pawns.set i a, p.position.row < b.number_of_rows ∧
      p.position.column < b.number_of_columns) ∧
      ((b.pawns.set i a).map Pawn.position).Nodup) ↔ _
  rw [hmem, hnodup]

  unfold othersOK othersPositions
  rw [List.forall_mem_map]
  tauto

/-! ### Characterization of `move_pawn` -/

theorem move_pawn_none_iff (b : Board) (i : Nat) (ri ci : Int) :
    b.move_pawn i ri ci = none ↔ b.pawns.get? i = none := by
  unfold Board.move_pawn
  cases h : b.pawns.get? i with
  | none => simp
  | some p =>
    simp only [Option.some.injEq]
    split
    · simp
    · split <;> simp

theorem move_pawn_false (b : Board) {i : Nat} {ri ci : Int} {b₂ : Board}
    (hmv : b.move_pawn i ri ci = some (false, b₂)) : b₂ = b := by
  unfold Board.move_pawn at hmv
  cases h : b.pawns.get? i with
  | none => rw [h] at hmv; exact absurd hmv (by simp)
  | some p =>
    rw [h] at hmv
    simp only [] at hmv
    split at hmv
    · simp only [Option.some.injEq, Prod.mk.injEq] at hmv
      exact hmv.2.symm
    · split at hmv
      · simp at hmv
      · simp only [Option.some.injEq, Prod.mk.injEq] at hmv
        exact hmv.2.symm

theorem move_pawn_true (b : Board) {i : Nat} {ri ci : Int} {b₂ : Board} {p : Pawn}
    (hp : b.pawns.get? i = some p)
    (hmv : b.move_pawn i ri ci = some (true, b₂)) :
    0 ≤ (p.position.row : Int) + ri ∧ (p.position.row : Int) + ri < (b.number_of_rows : Int) ∧
    0 ≤ (p.position.column : Int) + ci ∧
    (p.position.column : Int) + ci < (b.number_of_columns : Int) ∧
    (⟨((p.position.row : Int) + ri).toNat, ((p.position.column : Int) + ci).toNat⟩ : Position)
        ∉ othersPositions b i ∧
    othersOK b i ∧
    b₂ = setPawn b i (slideStepPawn p ri ci) ∧
    b₂.is_valid = true := by
  have hi : i < b.pawns.length := by
    rcases List.get?_eq_some.1 hp with ⟨h', _⟩; exact h'
  unfold Board.move_pawn at hmv
  rw [hp] at hmv
  simp only [] at hmv
  split at hmv
  · simp at hmv
  · next hbnd =>
    push_neg at hbnd
    obtain ⟨hb1, hb2, hb3, hb4⟩ := hbnd
    split at hmv
    · next hval =>
      simp only [Option.some.injEq, Prod.mk.injEq] at hmv
      obtain ⟨-, hb₂⟩ := hmv
      subst hb₂
      have := (is_valid_set_iff b i _ hi).1 hval
      exact ⟨hb1, hb2, hb3, hb4, this.2.2.1, this.2.2.2, rfl, hval⟩
    · simp at hmv

theorem move_pawn_true_of (b : Board) {i : Nat} {ri ci : Int} {p : Pawn}
    (hp : b.pawns.get? i = some p) (hOK : othersOK b i)
    (h1 : 0 ≤ (p.position.row : Int) + ri)
    (h2 : (p.position.row : Int) + ri < (b.number_of_rows : Int))
    (h3 : 0 ≤ (p.position.column : Int) + ci)
    (h4 : (p.position.column : Int) + ci < (b.number_of_columns : Int))
    (h5 : (⟨((p.position.row : Int) + ri).toNat,
        ((p.position.column : Int) + ci).toNat⟩ : Position) ∉ othersPositions b i) :
    b.move_pawn i ri ci = some (true, setPawn b i (slideStepPawn p ri ci)) := by
  have hi : i < b.pawns.length := by
    rcases List.get?_eq_some.1 hp with ⟨h', _⟩; exact h'
  unfold Board.move_pawn
  rw [hp]
  simp only []
  split
  · next hbnd => omega
  · split
    · rfl
    · next hval =>
      exact absurd ((is_valid_set_iff b i _ hi).2
        ⟨(Int.toNat_lt h1).2 h2, (Int.toNat_lt h3).2 h4, h5, hOK⟩) hval

theorem get?_set_self {α : Type} {l : List α} {i : Nat} (h : i < l.length) (a : α) :
    (l.set i a).get? i = some a := by
  rw [List.get?_eq_getElem?]
  exact List.getElem?_set_eq_of_lt a h

theorem get?_set_ne {α : Type} {l : List α} {i j : Nat} (h : i ≠ j) (a : α) :
    (l.set i a).get? j = l.get? j := by
  rw [List.get?_eq_getElem?, List.get?_eq_getElem?]
  exact List.getElem?_set_ne h

theorem stepTarget_shift (p : Position) (dir : Direction) (t : Nat)
    (h1 : 0 ≤ (p.row : Int) + dir.increments.1)
    (h2 : 0 ≤ (p.column : Int) + dir.increments.2) :
    stepTarget ⟨((p.row : Int) + dir.increments.1).toNat,
      ((p.column : Int) + dir.increments.2).toNat⟩ dir t = stepTarget p dir (t + 1) := by
  unfold stepTarget
  rw [Prod.mk.injEq]
  rw [Int.toNat_of_nonneg h1, Int.toNat_of_nonneg h2]
  constructor <;> · push_cast; ring

theorem stepOK_one (b : Board) (i : Nat) (s : Position) (dir : Direction) :
    stepOK b i s dir 1 ↔
      (0 ≤ (s.row : Int) + dir.increments.1 ∧
        (s.row : Int) + dir.increments.1 < (b.number_of_rows : Int) ∧
        0 ≤ (s.column : Int) + dir.increments.2 ∧
        (s.column : Int) + dir.increments.2 < (b.number_of_columns : Int) ∧
        (⟨((s.row : Int) + dir.increments.1).toNat,
          ((s.column : Int) + dir.increments.2).toNat⟩ : Position)
            ∉ othersPositions b i) := by
  unfold stepOK stepPosition stepTarget
  norm_num

/-- The central loop lemma: a successful return of the slide loop leaves every
field except pawn `i`'s position untouched, and moves pawn `i` to the position
reached after `k` legal steps, where step `k + 1` is illegal. -/
theorem slideLoop_spec (dir : Direction) (i : Nat) :
    ∀ (fuel : Nat) (b : Board) (hm res : Bool) (b₂ : Board) (p : Pawn),
    b.pawns.get? i = some p →
    slideLoop fuel b i dir hm = some (res, b₂) →
    (b₂.number_of_rows = b.number_of_rows ∧
     b₂.number_of_columns = b.number_of_columns ∧
     b₂.next_player = b.next_player ∧
     b₂.pawns.length = b.pawns.length ∧
     (∀ j, j ≠ i → b₂.pawns.get? j = b.pawns.get? j)) ∧
    ∃ k : Nat, b₂.pawns.get? i = some ⟨p.color, stepPosition p.position dir k⟩ ∧
      res = (hm || decide (0 < k)) ∧
      (∀ t, 1 ≤ t → t ≤ k → stepOK b i p.position dir t) ∧
      (othersOK b i → ¬ stepOK b i p.position dir (k + 1)) ∧
      (0 < k → b₂.is_valid = true) ∧
      (k = 0 → b₂ = b) ∧
      (0 < k → othersOK b i) := by
  intro fuel
  induction fuel with
  | zero =>
    intro b hm res b₂ p hp hsl
    simp [slideLoop] at hsl
  | succ fuel ih =>
    intro b hm res b₂ p hp hsl
    have hi : i < b.pawns.length := by
      rcases List.get?_eq_some.1 hp with ⟨h', _⟩; exact h'
    rw [slideLoop] at hsl
    cases hmv : b.move_pawn i dir.increments.1 dir.increments.2 with
    | none =>
      rw [hmv] at hsl
      exact absurd hsl (by simp)
    | some r =>
      rw [hmv] at hsl
      obtain ⟨moved, b'⟩ := r
      cases moved with
      | false =>
        simp only [Option.some.injEq, Prod.mk.injEq] at hsl
        obtain ⟨hres, hb₂⟩ := hsl
        subst hb₂
        refine ⟨⟨rfl, rfl, rfl, rfl, fun j _ => rfl⟩, 0, ?_, ?_, ?_, ?_, ?_, ?_, ?_⟩
        · rw [stepPosition_zero]
          cases p
          exact hp
        · simp [hres]
        · intro t h1t h2t; omega
        · intro hOK hstep
          rw [stepOK_one] at hstep
          obtain ⟨s1, s2, s3, s4, s5⟩ := hstep
          have := move_pawn_true_of b hp hOK s1 s2 s3 s4 s5
          rw [hmv] at this
          simp at this
        · intro h0; omega
        · intro _; rfl
        · intro h0; omega
      | true =>
        obtain ⟨hb1, hb2, hb3, hb4, hb5, hbOK, hbeq, hbval⟩ := move_pawn_true b hp hmv
        subst hbeq
        have hp' : (setPawn b i (slideStepPawn p dir.increments.1 dir.increments.2)).pawns.get? i
            = some (slideStepPawn p dir.increments.1 dir.increments.2) := by
          unfold setPawn
          exact get?_set_self hi _
        obtain ⟨⟨f1, f2, f3, f4, f5⟩, k₁, hk1, hk2, hk3, hk4, hk5, hk6, hk7⟩ :=
          ih _ true res b₂ _ hp' hsl
        have hshift_tgt : ∀ t, stepTarget
            (slideStepPawn p dir.increments.1 dir.increments.2).position dir t
            = stepTarget p.position dir (t + 1) := by
          intro t
          exact stepTarget_shift p.position dir t hb1 hb3
        have hshift_pos : ∀ t, stepPosition
            (slideStepPawn p dir.increments.1 dir.increments.2).position dir t
            = stepPosition p.position dir (t + 1) := by
          intro t
          unfold stepPosition
          rw [hshift_tgt]
        have hshift_ok : ∀ t, stepOK
            (setPawn b i (slideStepPawn p dir.increments.1 dir.increments.2)) i
            (slideStepPawn p dir.increments.1 dir.increments.2).position dir t
            ↔ stepOK b i p.position dir (t + 1) := by
          intro t
          unfold stepOK
          rw [hshift_tgt, hshift_pos, othersPositions_set]
          exact Iff.rfl
        refine ⟨⟨f1, f2, f3, ?_, ?_⟩, k₁ + 1, ?_, ?_, ?_, ?_, ?_, ?_, ?_⟩
        · rw [f4]; unfold setPawn; simp
        · intro j hj
          rw [f5 j hj]
          unfold setPawn
          exact get?_set_ne (fun h => hj h.symm) _
        · rw [hk1, hshift_pos]
          rfl
        · simp only [hk2, Bool.true_or]
          have : decide (0 < k₁ + 1) = true := by simp
          rw [this, Bool.or_true]
        · intro t h1t h2t
          match t, h1t with
          | 1, _ =>
            rw [stepOK_one]
            exact ⟨hb1, hb2, hb3, hb4, hb5⟩
          | (t' + 2), _ =>
            have := hk3 (t' + 1) (by omega) (by omega)
            exact (hshift_ok (t' + 1)).1 this
        · intro hOK hstep
          have hOK' := (othersOK_set b i
            (slideStepPawn p dir.increments.1 dir.increments.2)).2 hOK
          exact hk4 hOK' ((hshift_ok (k₁ + 1)).2 hstep)
        · intro _
          cases Nat.eq_zero_or_pos k₁ with
          | inl h0 => rw [hk6 h0]; exact hbval
          | inr hpos => exact hk5 hpos
        · intro h; omega
        · intro _; exact hbOK

/-! ### Inversion and forward lemmas for `move_pawn_until_blocked` -/

theorem winner_set_next (b : Board) (x : Option Color) :
    Board.winner { b with next_player := x } = b.winner := rfl

theorem is_valid_set_next (b : Board) (x : Option Color) :
    Board.is_valid { b with next_player := x } = b.is_valid := rfl

theorem other_color_ne (c : Color) : c.other_color ≠ c := by
  cases c <;> simp [Color.other_color]

theorem increments_ne_zero (dir : Direction) :
    dir.increments.1 ≠ 0 ∨ dir.increments.2 ≠ 0 := by
  cases dir <;> simp [Direction.increments]

/-- The slide fuel used by `move_pawn_until_blocked`. -/
def slideFuel (b : Board) : Nat := b.number_of_rows + b.number_of_columns + 1

theorem mpub_no_turn (b : Board) (i : Nat) (dir : Direction) (h : b.next_player = none) :
    b.move_pawn_until_blocked i dir = some (false, b) := by
  unfold Board.move_pawn_until_blocked
  rw [h]

theorem mpub_wrong_color (b : Board) {i : Nat} (dir : Direction) {c : Color} {p : Pawn}
    (hc : b.next_player = some c) (hp : b.pawns.get? i = some p) (hne : p.color ≠ c) :
    b.move_pawn_until_blocked i dir = some (false, b) := by
  unfold Board.move_pawn_until_blocked
  rw [hc, hp]
  simp [hne]

/-- Full inversion of a non-panicking call of `move_pawn_until_blocked`. -/
theorem mpub_cases (b : Board) (i : Nat) (dir : Direction) (r : Bool) (b' : Board)
    (h : b.move_pawn_until_blocked i dir = some (r, b')) :
    (b.next_player = none ∧ r = false ∧ b' = b) ∨
    (∃ c p, b.next_player = some c ∧ b.pawns.get? i = some p ∧ p.color ≠ c ∧
      r = false ∧ b' = b) ∨
    (∃ c p, b.next_player = some c ∧ b.pawns.get? i = some p ∧ p.color = c ∧
      ((r = false ∧ slideLoop (slideFuel b) b i dir false = some (false, b')) ∨
       (r = true ∧ ∃ b₂, slideLoop (slideFuel b) b i dir false = some (true, b₂) ∧
         ((∃ w, b₂.winner = some (some w)) ∧ b' = { b₂ with next_player := none } ∨
          (b₂.winner = some none ∧
            b' = { b₂ with next_player := b₂.next_player.map Color.other_color }))))) := by
  unfold Board.move_pawn_until_blocked at h
  cases hnp : b.next_player with
  | none =>
    rw [hnp] at h
    simp only [Option.some.injEq, Prod.mk.injEq] at h
    exact Or.inl ⟨rfl, h.1.symm, h.2.symm⟩
  | some c =>
    rw [hnp] at h
    cases hp : b.pawns.get? i with
    | none => rw [hp] at h; exact absurd h (by simp)
    | some p =>
      rw [hp] at h
      simp only [] at h
      split at h
      · next hne =>
        simp only [Option.some.injEq, Prod.mk.injEq] at h
        exact Or.inr (Or.inl ⟨c, p, rfl, rfl, hne, h.1.symm, h.2.symm⟩)
      · next heq =>
        rw [not_not] at heq
        cases hsl : slideLoop (slideFuel b) b i dir false with
        | none =>
          rw [show b.number_of_rows + b.number_of_columns + 1 = slideFuel b from rfl, hsl] at h
          exact absurd h (by simp)
        | some s =>
          rw [show b.number_of_rows + b.number_of_columns + 1 = slideFuel b from rfl, hsl] at h
          obtain ⟨moved, b₂⟩ := s
          cases moved with
          | false =>
            simp only [Option.some.injEq, Prod.mk.injEq] at h
            refine Or.inr (Or.inr ⟨c, p, rfl, rfl, heq, Or.inl ⟨h.1.symm, ?_⟩⟩)
            rw [← h.2]
          | true =>
            simp only [] at h
            cases hw : b₂.winner with
            | none => rw [hw] at h; exact absurd h (by simp)
            | some w =>
              rw [hw] at h
              cases w with
              | none =>
                simp only [Option.some.injEq, Prod.mk.injEq] at h
                exact Or.inr (Or.inr ⟨c, p, rfl, rfl, heq, Or.inr ⟨h.1.symm, b₂, rfl,
                  Or.inr ⟨hw, h.2.symm⟩⟩⟩)
              | some wc =>
                simp only [Option.some.injEq, Prod.mk.injEq] at h
                exact Or.inr (Or.inr ⟨c, p, rfl, rfl, heq, Or.inr ⟨h.1.symm, b₂, rfl,
                  Or.inl ⟨⟨wc, hw⟩, h.2.symm⟩⟩⟩)

theorem slideLoop_no_step (b : Board) {i : Nat} {dir : Direction} {p : Pawn}
    (hp : b.pawns.get? i = some p) (hno : ¬ stepOK b i p.position dir 1)
    (f : Nat) (hm : Bool) : slideLoop (f + 1) b i dir hm = some (hm, b) := by
  rw [slideLoop]
  cases hmv : b.move_pawn i dir.increments.1 dir.increments.2 with
  | none =>
    have := (move_pawn_none_iff b i dir.increments.1 dir.increments.2).1 hmv
    rw [hp] at this
    exact absurd this (by simp)
  | some s =>
    obtain ⟨moved, b''⟩ := s
    cases moved with
    | false => rfl
    | true =>
      exfalso
      obtain ⟨hb1, hb2, hb3, hb4, hb5, -⟩ := move_pawn_true b hp hmv
      exact hno ((stepOK_one b i p.position dir).2 ⟨hb1, hb2, hb3, hb4, hb5⟩)

theorem stepPosition_ne (p : Position) (dir : Direction) {k : Nat} (hk : 0 < k)
    (hb1 : 0 ≤ (stepTarget p dir k).1) (hb2 : 0 ≤ (stepTarget p dir k).2) :
    stepPosition p dir k ≠ p := by
  intro hEq
  have hrow : (stepTarget p dir k).1 = (p.row : Int) := by
    have h1 := congrArg Position.row hEq
    have h2 := congrArg (Nat.cast : Nat → Int) h1
    rw [show (stepPosition p dir k).row = (stepTarget p dir k).1.toNat from rfl] at h2
    rw [Int.toNat_of_nonneg hb1] at h2
    exact h2
  have hcol : (stepTarget p dir k).2 = (p.column : Int) := by
    have h1 := congrArg Position.column hEq
    have h2 := congrArg (Nat.cast : Nat → Int) h1
    rw [show (stepPosition p dir k).column = (stepTarget p dir k).2.toNat from rfl] at h2
    rw [Int.toNat_of_nonneg hb2] at h2
    exact h2
  unfold stepTarget at hrow hcol
  have hkr : (k : Int) * dir.increments.1 = 0 := by omega
  have hkc : (k : Int) * dir.increments.2 = 0 := by omega
  have hkne : (k : Int) ≠ 0 := by
    simp only [ne_eq, Nat.cast_eq_zero]
    omega
  rcases increments_ne_zero dir with hr | hc
  · exact hr ((mul_eq_zero.1 hkr).resolve_left hkne)
  · exact hc ((mul_eq_zero.1 hkc).resolve_left hkne)

theorem farthest_unique {b : Board} {i : Nat} {s : Position} {dir : Direction} {k k' : Nat}
    (h1 : ∀ t, 1 ≤ t → t ≤ k → stepOK b i s dir t) (h2 : ¬ stepOK b i s dir (k + 1))
    (h3 : ∀ t, 1 ≤ t → t ≤ k' → stepOK b i s dir t) (h4 : ¬ stepOK b i s dir (k' + 1)) :
    k' = k := by
  rcases lt_trichotomy k k' with hlt | heq | hgt
  · exact absurd (h3 (k + 1) (by omega) (by omega)) h2
  · omega
  · exact absurd (h1 (k' + 1) (by omega) (by omega)) h4

/-! ### Claim theorems about the slide operation -/

/-- C9: a (non-panicking) call of `move_pawn_until_blocked` changes at most the
moved pawn's position and the `next_player` field: dimensions, pawn count, the
other pawns, and the moved pawn's color are all preserved, whether the call
returns `true` or `false`. -/
theorem move_pawn_until_blocked_frame (b : Board) (i : Nat) (dir : Direction)
    (r : Bool) (b' : Board)
    (h : b.move_pawn_until_blocked i dir = some (r, b')) :
    b'.number_of_rows = b.number_of_rows ∧
    b'.number_of_columns = b.number_of_columns ∧
    b'.pawns.length = b.pawns.length ∧
    (∀ j, j ≠ i → b'.pawns.get? j = b.pawns.get? j) ∧
    (∀ p, b.pawns.get? i = some p → ∃ q, b'.pawns.get? i = some ⟨p.color, q⟩) := by
  rcases mpub_cases b i dir r b' h with ⟨-, -, h3⟩ | ⟨c, p, -, -, -, -, h3⟩ |
    ⟨c, p, hc, hp, hcol, hrest⟩
  · subst h3
    exact ⟨rfl, rfl, rfl, fun j _ => rfl, fun p hp => ⟨p.position, by cases p; exact hp⟩⟩
  · subst h3
    exact ⟨rfl, rfl, rfl, fun j _ => rfl, fun p hp => ⟨p.position, by cases p; exact hp⟩⟩
  · rcases hrest with ⟨hr', hsl⟩ | ⟨-, b₂, hsl, hb'⟩
    · subst hr'
      obtain ⟨⟨f1, f2, f3, f4, f5⟩, k, hk1, -⟩ :=
        slideLoop_spec dir i (slideFuel b) b false false b' p hp hsl
      refine ⟨f1, f2, f4, f5, fun p' hp' => ?_⟩
      have hpp : p = p' := by
        rw [hp] at hp'
        exact Option.some_injective _ hp'
      subst hpp
      exact ⟨_, hk1⟩
    · obtain ⟨⟨f1, f2, f3, f4, f5⟩, k, hk1, -⟩ :=
        slideLoop_spec dir i (slideFuel b) b false true b₂ p hp hsl
      have hpw : b'.pawns = b₂.pawns := by
        rcases hb' with ⟨-, hb'⟩ | ⟨-, hb'⟩ <;> (subst hb'; rfl)
      refine ⟨?_, ?_, ?_, ?_, fun p' hp' => ?_⟩
      · rcases hb' with ⟨-, hb'⟩ | ⟨-, hb'⟩ <;> (subst hb'; exact f1)
      · rcases hb' with ⟨-, hb'⟩ | ⟨-, hb'⟩ <;> (subst hb'; exact f2)
      · rw [hpw]; exact f4
      · intro j hj; rw [hpw]; exact f5 j hj
      · have hpp : p = p' := by
          rw [hp] at hp'
          exact Option.some_injective _ hp'
        subst hpp
        rw [hpw]
        exact ⟨_, hk1⟩

/-- C6: the slide fails (returns `false`) leaving the board unchanged when it
is not the pawn's color's turn (including a finished game) or when not even one
step in the direction is in bounds and collision-free; and it returns `true`
exactly when the pawn actually moved. -/
theorem move_pawn_until_blocked_failure (b : Board) (i : Nat) (dir : Direction) :
    (b.next_player = none → b.move_pawn_until_blocked i dir = some (false, b)) ∧
    (∀ c p, b.next_player = some c → b.pawns.get? i = some p → p.color ≠ c →
      b.move_pawn_until_blocked i dir = some (false, b)) ∧
    (∀ c p, b.next_player = some c → b.pawns.get? i = some p → p.color = c →
      ¬ stepOK b i p.position dir 1 → b.move_pawn_until_blocked i dir = some (false, b)) ∧
    (∀ r b', b.move_pawn_until_blocked i dir = some (r, b') →
      ((r = false → b' = b) ∧ (r = true → b'.pawns.get? i ≠ b.pawns.get? i))) := by
  refine ⟨mpub_no_turn b i dir, fun c p hc hp hne => mpub_wrong_color b dir hc hp hne,
    fun c p hc hp hcol hno => ?_, fun r b' h => ⟨?_, ?_⟩⟩
  · unfold Board.move_pawn_until_blocked
    rw [hc, hp]
    simp only [hcol, ne_eq, not_true_eq_false, if_false]
    rw [show b.number_of_rows + b.number_of_columns + 1
      = (b.number_of_rows + b.number_of_columns) + 1 from rfl]
    rw [slideLoop_no_step b hp hno (b.number_of_rows + b.number_of_columns) false]
  · intro hr
    subst hr
    rcases mpub_cases b i dir false b' h with ⟨-, -, h3⟩ | ⟨c, p, -, -, -, -, h3⟩ |
      ⟨c, p, hc, hp, hcol, hrest⟩
    · exact h3
    · exact h3
    · rcases hrest with ⟨-, hsl⟩ | ⟨hr, -⟩
      · obtain ⟨-, k, -, hk2, -, -, -, hk6, -⟩ :=
          slideLoop_spec dir i (slideFuel b) b false false b' p hp hsl
        have hk0 : k = 0 := by
          by_contra hne
          rw [Bool.false_or] at hk2
          have : decide (0 < k) = true := by
            simp only [decide_eq_true_eq]
            omega
          rw [this] at hk2
          exact absurd hk2 (by simp)
        exact hk6 hk0
      · exact absurd hr (by simp)
  · intro hr
    subst hr
    rcases mpub_cases b i dir true b' h with ⟨-, hr', -⟩ | ⟨c, p, -, -, -, hr', -⟩ |
      ⟨c, p, hc, hp, hcol, hrest⟩
    · exact absurd hr' (by simp)
    · exact absurd hr' (by simp)
    · rcases hrest with ⟨hr', -⟩ | ⟨-, b₂, hsl, hb'⟩
      · exact absurd hr' (by simp)
      · obtain ⟨⟨-, -, -, -, -⟩, k, hk1, hk2, hk3, -, -, -, -⟩ :=
          slideLoop_spec dir i (slideFuel b) b false true b₂ p hp hsl
        have hkpos : 0 < k := by
          rw [Bool.false_or] at hk2
          have := hk2.symm
          rw [decide_eq_true_eq] at this
          exact this
        have hpw : b'.pawns = b₂.pawns := by
          rcases hb' with ⟨-, hb'⟩ | ⟨-, hb'⟩ <;> (subst hb'; rfl)
        rw [hpw, hk1, hp]
        intro hcontra
        have heq : (⟨p.color, stepPosition p.position dir k⟩ : Pawn) = p :=
          Option.some_injective _ hcontra
        have hposeq : stepPosition p.position dir k = p.position := congrArg Pawn.position heq
        have hsk := hk3 k (by omega) (le_refl k)
        obtain ⟨s1, -, s3, -, -⟩ := hsk
        exact stepPosition_ne p.position dir hkpos s1 s3 hposeq

/-- C5: when a slide succeeds, the resulting board's `next_player` is `none`
exactly when the slide produced a winner, and otherwise it is the opposite of
the mover's color. -/
theorem move_pawn_until_blocked_winner (b : Board) (i : Nat) (dir : Direction) (b' : Board)
    (h : b.move_pawn_until_blocked i dir = some (true, b')) :
    ((∃ w, b'.winner = some (some w)) → b'.next_player = none) ∧
    (b'.winner = some none →
      ∃ c, b.next_player = some c ∧ b'.next_player = some c.other_color) := by
  rcases mpub_cases b i dir true b' h with ⟨-, hr', -⟩ | ⟨c, p, -, -, -, hr', -⟩ |
    ⟨c, p, hc, hp, hcol, hrest⟩
  · exact absurd hr' (by simp)
  · exact absurd hr' (by simp)
  · rcases hrest with ⟨hr', -⟩ | ⟨-, b₂, hsl, hb'⟩
    · exact absurd hr' (by simp)
    · obtain ⟨⟨-, -, f3, -, -⟩, -⟩ :=
        slideLoop_spec dir i (slideFuel b) b false true b₂ p hp hsl
      rcases hb' with ⟨⟨w, hw⟩, hb'⟩ | ⟨hw, hb'⟩
      · subst hb'
        refine ⟨fun _ => rfl, fun hcontra => ?_⟩
        rw [winner_set_next, hw] at hcontra
        exact absurd (Option.some_injective _ hcontra) (by simp)
      · subst hb'
        constructor
        · rintro ⟨w, hcontra⟩
          rw [winner_set_next, hw] at hcontra
          exact absurd (Option.some_injective _ hcontra) (by simp)
        · intro _
          refine ⟨c, hc, ?_⟩
          show b₂.next_player.map Color.other_color = some c.other_color
          rw [f3, hc]
          rfl

/-- C1: a successful slide moves the pawn to the unique farthest cell reachable
by successive legal single steps (step `k + 1` is illegal), and sliding the same
pawn in the same direction again on the resulting board returns `false`. -/
theorem move_pawn_until_blocked_farthest (b : Board) (i : Nat) (dir : Direction) (b' : Board)
    (h : b.move_pawn_until_blocked i dir = some (true, b')) :
    ∃ p k, b.pawns.get? i = some p ∧ 0 < k ∧
      b'.pawns.get? i = some ⟨p.color, stepPosition p.position dir k⟩ ∧
      (∀ t, 1 ≤ t → t ≤ k → stepOK b i p.position dir t) ∧
      ¬ stepOK b i p.position dir (k + 1) ∧
      (∀ k', (∀ t, 1 ≤ t → t ≤ k' → stepOK b i p.position dir t) →
        ¬ stepOK b i p.position dir (k' + 1) → k' = k) ∧
      b'.move_pawn_until_blocked i dir = some (false, b') := by
  rcases mpub_cases b i dir true b' h with ⟨-, hr', -⟩ | ⟨c, p, -, -, -, hr', -⟩ |
    ⟨c, p, hc, hp, hcol, hrest⟩
  · exact absurd hr' (by simp)
  · exact absurd hr' (by simp)
  · rcases hrest with ⟨hr', -⟩ | ⟨-, b₂, hsl, hb'⟩
    · exact absurd hr' (by simp)
    · obtain ⟨⟨-, -, f3, -, -⟩, k, hk1, hk2, hk3, hk4, -, -, hk7⟩ :=
        slideLoop_spec dir i (slideFuel b) b false true b₂ p hp hsl
      have hkpos : 0 < k := by
        rw [Bool.false_or] at hk2
        have := hk2.symm
        rw [decide_eq_true_eq] at this
        exact this
      have hOK := hk7 hkpos
      have hnostep := hk4 hOK
      have hpw : b'.pawns = b₂.pawns := by
        rcases hb' with ⟨-, hb'⟩ | ⟨-, hb'⟩ <;> (subst hb'; rfl)
      refine ⟨p, k, hp, hkpos, by rw [hpw]; exact hk1, hk3, hnostep,
        fun k' hall hnone => farthest_unique hk3 hnostep hall hnone, ?_⟩
      rcases hb' with ⟨-, hb'⟩ | ⟨-, hb'⟩
      · subst hb'
        exact mpub_no_turn _ i dir rfl
      · subst hb'
        have hnext : ({ b₂ with next_player := b₂.next_player.map Color.other_color }
            : Board).next_player = some c.other_color := by
          show b₂.next_player.map Color.other_color = some c.other_color
          rw [f3, hc]
          rfl
        have hgp : ({ b₂ with next_player := b₂.next_player.map Color.other_color }
            : Board).pawns.get? i = some ⟨p.color, stepPosition p.position dir k⟩ := hk1
        refine mpub_wrong_color _ dir hnext hgp ?_
        show p.color ≠ c.other_color
        rw [hcol]
        exact fun hcc => other_color_ne c hcc.symm

/-- C10: on a valid board, green's alignment is checked first, so if both
colors are simultaneously aligned the winner is green, and yellow is reported
only when green is not aligned. -/
theorem winner_green_first (b : Board) (hv : b.is_valid = true) :
    (aligned_positions b.green_positions = some true →
      aligned_positions b.yellow_positions = some true →
      b.winner = some (some Color.Green)) ∧
    (b.winner = some (some Color.Yellow) →
      aligned_positions b.green_positions ≠ some true) := by
  constructor
  · intro hg _
    unfold Board.winner
    rw [hv, hg]
    rfl
  · intro hw hg
    unfold Board.winner at hw
    rw [hv, hg] at hw
    simp at hw

theorem mapM_option_mem {α β : Type} {f : α → Option β} :
    ∀ {l : List α} {l' : List β}, l.mapM f = some l' → ∀ y ∈ l', ∃ x ∈ l, f x = some y := by
  intro l
  induction l with
  | nil =>
    intro l' h y hy
    simp only [List.mapM_nil, pure, Option.some.injEq] at h
    subst h
    simp at hy
  | cons a as ih =>
    intro l' h y hy
    rw [List.mapM_cons] at h
    cases hfa : f a with
    | none => rw [hfa] at h; simp at h
    | some fa =>
      rw [hfa] at h
      cases hfas : as.mapM f with
      | none => rw [hfas] at h; simp at h
      | some fas =>
        rw [hfas] at h
        simp only [Option.bind_some, Option.pure_def, Option.bind_eq_bind,
          Option.some_bind, Option.some.injEq] at h
        subst h
        rcases List.mem_cons.1 hy with rfl | hmem
        · exact ⟨a, List.mem_cons_self _ _, hfa⟩
        · obtain ⟨x, hx, hfx⟩ := ih hfas y hmem
          exact ⟨x, List.mem_cons_of_mem _ hx, hfx⟩

theorem mpub_true_valid (b : Board) {i : Nat} {dir : Direction} {b' : Board}
    (h : b.move_pawn_until_blocked i dir = some (true, b')) : b'.is_valid = true := by
  rcases mpub_cases b i dir true b' h with ⟨-, hr', -⟩ | ⟨c, p, -, -, -, hr', -⟩ |
    ⟨c, p, hc, hp, hcol, hrest⟩
  · exact absurd hr' (by simp)
  · exact absurd hr' (by simp)
  · rcases hrest with ⟨hr', -⟩ | ⟨-, b₂, hsl, hb'⟩
    · exact absurd hr' (by simp)
    · obtain ⟨-, k, -, hk2, -, -, hk5, -, -⟩ :=
        slideLoop_spec dir i (slideFuel b) b false true b₂ p hp hsl
      have hkpos : 0 < k := by
        rw [Bool.false_or] at hk2
        have := hk2.symm
        rw [decide_eq_true_eq] at this
        exact this
      have hval := hk5 hkpos
      rcases hb' with ⟨-, hb'⟩ | ⟨-, hb'⟩ <;> (subst hb'; rw [is_valid_set_next]; exact hval)

theorem gvd_mem (b : Board) (i : Nat) {ds : List (Direction × Board)}
    (h : b.get_valid_directions_and_resulting_boards i = some ds) :
    ∀ e ∈ ds, b.move_pawn_until_blocked i e.1 = some (true, e.2) := by
  unfold Board.get_valid_directions_and_resulting_boards at h
  cases hres : allDirections.mapM (fun dir => do
      let r ← b.move_pawn_until_blocked i dir
      pure (dir, r)) with
  | none => rw [hres] at h; simp at h
  | some results =>
    rw [hres] at h
    simp only [Option.pure_def, Option.bind_eq_bind, Option.some_bind,
      Option.some.injEq] at h
    subst h
    intro e he
    rw [List.mem_filterMap] at he
    obtain ⟨r, hr, hre⟩ := he
    obtain ⟨dir, hdir, hgr⟩ := mapM_option_mem hres r hr
    cases hmp : b.move_pawn_until_blocked i dir with
    | none => rw [hmp] at hgr; simp at hgr
    | some mr =>
      rw [hmp] at hgr
      simp only [Option.pure_def, Option.bind_eq_bind, Option.some_bind,
        Option.some.injEq] at hgr
      subst hgr
      cases hmv : mr.1 with
      | false => rw [hmv] at hre; simp at hre
      | true =>
        rw [hmv] at hre
        simp only [if_true, Option.some.injEq] at hre
        subst hre
        show b.move_pawn_until_blocked i dir = some (true, mr.2)
        rw [hmp]
        rw [show mr = (mr.1, mr.2) from rfl, hmv]

theorem gavd_mem (b : Board) {l : List (Nat × Direction × Board)}
    (h : b.get_all_valid_directions_and_resulting_boards = some l) :
    ∀ e ∈ l, b.move_pawn_until_blocked e.1 e.2.1 = some (true, e.2.2) := by
  unfold Board.get_all_valid_directions_and_resulting_boards at h
  cases hres : b.pawns.enum.mapM (fun ip : Nat × Pawn =>
      if some ip.2.color ≠ b.next_player then (pure [] : Option (List (Nat × Direction × Board)))
      else do
        let ds ← b.get_valid_directions_and_resulting_boards ip.1
        pure (ds.map fun d => (ip.1, d.1, d.2))) with
  | none => rw [hres] at h; simp at h
  | some lists =>
    rw [hres] at h
    simp only [Option.pure_def, Option.bind_eq_bind, Option.some_bind,
      Option.some.injEq] at h
    subst h
    intro e he
    rw [List.mem_flatten] at he
    obtain ⟨sub, hsub, hesub⟩ := he
    obtain ⟨ip, hip, hf⟩ := mapM_option_mem hres sub hsub
    by_cases hcolor : some ip.2.color ≠ b.next_player
    · rw [if_pos hcolor] at hf
      simp only [Option.pure_def, Option.some.injEq] at hf
      subst hf
      simp at hesub
    · rw [if_neg hcolor] at hf
      cases hds : b.get_valid_directions_and_resulting_boards ip.1 with
      | none => rw [hds] at hf; simp at hf
      | some ds =>
        rw [hds] at hf
        simp only [Option.pure_def, Option.bind_eq_bind, Option.some_bind,
          Option.some.injEq] at hf
        subst hf
        rw [List.mem_map] at hesub
        obtain ⟨d, hd, hde⟩ := hesub
        subst hde
        exact gvd_mem b ip.1 hds d hd

/-- C7: every resulting board produced by `get_all_valid_directions_and_resulting_boards`
is valid (all pawns in bounds, no two pawns on the same cell). -/
theorem all_legal_moves_valid (b : Board) (l : List (Nat × Direction × Board))
    (h : b.get_all_valid_directions_and_resulting_boards = some l) :
    ∀ e ∈ l, e.2.2.is_valid = true :=
  fun e he => mpub_true_valid b (gavd_mem b h e he)

/-! ### Concrete boards for witnesses -/

/-- The board reached from the default board by sliding pawn 0 down. -/
def boardAfterDown : Board :=
  { number_of_rows := 5, number_of_columns := 5,
    pawns := [⟨Color.Green, ⟨3, 1⟩⟩, ⟨Color.Green, ⟨0, 3⟩⟩, ⟨Color.Green, ⟨3, 2⟩⟩,
              ⟨Color.Yellow, ⟨1, 2⟩⟩, ⟨Color.Yellow, ⟨4, 1⟩⟩, ⟨Color.Yellow, ⟨4, 3⟩⟩],
    next_player := some Color.Yellow }

/-- A board where green can slide pawn 2 left into (0, 2) and win. -/
def winScenarioBoard : Board :=
  { number_of_rows := 5, number_of_columns := 5,
    pawns := [⟨Color.Green, ⟨0, 0⟩⟩, ⟨Color.Green, ⟨0, 1⟩⟩, ⟨Color.Green, ⟨0, 4⟩⟩,
              ⟨Color.Yellow, ⟨2, 0⟩⟩, ⟨Color.Yellow, ⟨2, 2⟩⟩, ⟨Color.Yellow, ⟨3, 4⟩⟩],
    next_player := some Color.Green }

/-- The winning result of the scenario slide: green aligned on row 0, game over. -/
def winScenarioAfter : Board :=
  { number_of_rows := 5, number_of_columns := 5,
    pawns := [⟨Color.Green, ⟨0, 0⟩⟩, ⟨Color.Green, ⟨0, 1⟩⟩, ⟨Color.Green, ⟨0, 2⟩⟩,
              ⟨Color.Yellow, ⟨2, 0⟩⟩, ⟨Color.Yellow, ⟨2, 2⟩⟩, ⟨Color.Yellow, ⟨3, 4⟩⟩],
    next_player := none }

/-- A (reachable only synthetically) valid board on which both colors are
simultaneously aligned. -/
def bothAlignedBoard : Board :=
  { number_of_rows := 5, number_of_columns := 5,
    pawns := [⟨Color.Green, ⟨0, 0⟩⟩, ⟨Color.Green, ⟨0, 1⟩⟩, ⟨Color.Green, ⟨0, 2⟩⟩,
              ⟨Color.Yellow, ⟨1, 0⟩⟩, ⟨Color.Yellow, ⟨1, 1⟩⟩, ⟨Color.Yellow, ⟨1, 2⟩⟩],
    next_player := some Color.Green }

theorem move_pawn_until_blocked_farthest_witness :
    ∃ p k, defaultBoard.pawns.get? 0 = some p ∧ 0 < k ∧
      boardAfterDown.pawns.get? 0 = some ⟨p.color, stepPosition p.position Direction.Down k⟩ ∧
      (∀ t, 1 ≤ t → t ≤ k → stepOK defaultBoard 0 p.position Direction.Down t) ∧
      ¬ stepOK defaultBoard 0 p.position Direction.Down (k + 1) ∧
      (∀ k', (∀ t, 1 ≤ t → t ≤ k' → stepOK defaultBoard 0 p.position Direction.Down t) →
        ¬ stepOK defaultBoard 0 p.position Direction.Down (k' + 1) → k' = k) ∧
      boardAfterDown.move_pawn_until_blocked 0 Direction.Down = some (false, boardAfterDown) :=
  move_pawn_until_blocked_farthest defaultBoard 0 Direction.Down boardAfterDown (by decide)

theorem move_pawn_until_blocked_winner_witness :
    winScenarioBoard.move_pawn_until_blocked 2 Direction.Left = some (true, winScenarioAfter) ∧
    winScenarioAfter.winner = some (some Color.Green) ∧
    winScenarioAfter.next_player = none :=
  ⟨by decide, by decide,
    (move_pawn_until_blocked_winner winScenarioBoard 2 Direction.Left winScenarioAfter
      (by decide)).1 ⟨Color.Green, by decide⟩⟩

theorem move_pawn_until_blocked_failure_witness :
    defaultBoard.move_pawn_until_blocked 3 Direction.Down = some (false, defaultBoard) :=
  (move_pawn_until_blocked_failure defaultBoard 3 Direction.Down).2.1 Color.Green
    ⟨Color.Yellow, ⟨1, 2⟩⟩ (by decide) (by decide) (by decide)

theorem move_pawn_until_blocked_frame_witness :
    boardAfterDown.pawns.length = defaultBoard.pawns.length :=
  (move_pawn_until_blocked_frame defaultBoard 0 Direction.Down true boardAfterDown
    (by decide)).2.2.1

theorem winner_green_first_witness :
    bothAlignedBoard.winner = some (some Color.Green) :=
  (winner_green_first bothAlignedBoard (by decide)).1 (by decide) (by decide)

theorem all_legal_moves_valid_witness :
    (0, Direction.Down, boardAfterDown).2.2.is_valid = true :=
  all_legal_moves_valid defaultBoard
    ((defaultBoard.get_all_valid_directions_and_resulting_boards).getD [])
    (by decide) (0, Direction.Down, boardAfterDown) (by decide)

/-! ### Alpha-beta minimax (ai/minmax.rs and minmax.rs, `MinMax::minmax_score`)

The engine first materializes the whole bounded-depth game tree in a petgraph
graph and then recurses over it; we model the materialized tree directly.  Each
node carries its static `BoardEvaluation::score` (an `isize`, modelled as `Int`)
and its children in edge-iteration order. -/

/-- Rust `isize::MIN`. -/
def isizeMIN : Int := -(2 ^ 63)

/-- Rust `isize::MAX`. -/
def isizeMAX : Int := 2 ^ 63 - 1

/-- A materialized search-tree node: static score and child subtrees. -/
inductive GTree where
  | node : Int → List GTree → GTree

/-- The node's static `BoardEvaluation::score`. -/
def GTree.score : GTree → Int
  | .node s _ => s

/-- The node's children in edge-iteration order. -/
def GTree.children : GTree → List GTree
  | .node _ cs => cs

/-- The `for edge in self.graph.edges(..)` loop of `minmax_score`, carrying the
running `value`, `alpha` and `beta`, and breaking out (`break`) as soon as
`beta ≤ alpha` after the update; `eval c a b` is the recursive call on child
`c` with window `(a, b)`. -/
def abGo (eval : GTree → Int → Int → Int) (maximizing : Bool) :
    List GTree → Int → Int → Int → Int
  | [], value, _, _ => value
  | c :: cs, value, alpha, beta =>
    let score := eval c alpha beta
    if maximizing then
      let value' := max value score
      let alpha' := max alpha value'
      if beta ≤ alpha' then value' else abGo eval maximizing cs value' alpha' beta
    else
      let value' := min value score
      let beta' := min beta value'
      if beta' ≤ alpha then value' else abGo eval maximizing cs value' alpha beta'

/-- Rust `MinMax::minmax_score`: at `depth_remaining = 0` the node's static score;
otherwise the pruning loop over the children starting from `isize::MIN`
(maximizing) or `isize::MAX` (minimizing), falling back to the static score
when the node has no children (`!at_least_one_edge`). -/
def minmaxScore : Nat → GTree → Int → Int → Bool → Int
  | 0, t, _, _, _ => t.score
  | d + 1, t, alpha, beta, maximizing =>
    match t.children with
    | [] => t.score
    | c :: cs =>
      abGo (fun c' a b => minmaxScore d c' a b (!maximizing)) maximizing (c :: cs)
        (if maximizing then isizeMIN else isizeMAX) alpha beta

/-- The specification's "unpruned full minimax evaluation of the same tree":
the true max (resp. min) of the children's values, with the same depth cutoff
and stand-pat fallback. -/
def fullMinimax : Nat → GTree → Bool → Int
  | 0, t, _ => t.score
  | d + 1, t, maximizing =>
    match t.children with
    | [] => t.score
    | c :: cs =>
      let rest := cs.map fun c' => fullMinimax d c' (!maximizing)
      if maximizing then rest.foldl max (fullMinimax d c (!maximizing))
      else rest.foldl min (fullMinimax d c (!maximizing))

mutual

/-- Every static score in the tree lies strictly between `isize::MIN` and
`isize::MAX`; true of every tree the engine builds, whose scores are
`100 - depth`, `-100 + depth` or `0`. -/
def scoresBounded : GTree → Bool
  | .node s cs => decide (isizeMIN < s) && decide (s < isizeMAX) && scoresBoundedList cs

/-- Property `scoresBounded` for every tree in a list. -/
def scoresBoundedList : List GTree → Bool
  | [] => true
  | c :: cs => scoresBounded c && scoresBoundedList cs

end

theorem foldl_max_le_iff (l : List Int) (v x : Int) :
    l.foldl max v ≤ x ↔ (v ≤ x ∧ ∀ y ∈ l, y ≤ x) := by
  induction l generalizing v with
  | nil => simp
  | cons a as ih =>
    rw [List.foldl_cons, ih]
    constructor
    · rintro ⟨hva, hall⟩
      rw [max_le_iff] at hva
      refine ⟨hva.1, fun y hy => ?_⟩
      rcases List.mem_cons.1 hy with rfl | hmem
      · exact hva.2
      · exact hall y hmem
    · rintro ⟨hv, hall⟩
      exact ⟨max_le_iff.2 ⟨hv, hall a (List.mem_cons_self _ _)⟩,
        fun y hy => hall y (List.mem_cons_of_mem _ hy)⟩

theorem le_foldl_max_iff (l : List Int) (v x : Int) :
    x ≤ l.foldl max v ↔ (x ≤ v ∨ ∃ y ∈ l, x ≤ y) := by
  induction l generalizing v with
  | nil => simp
  | cons a as ih =>
    rw [List.foldl_cons, ih]
    constructor
    · rintro (hx | ⟨y, hy, hxy⟩)
      · rcases le_max_iff.1 hx with h | h
        · exact Or.inl h
        · exact Or.inr ⟨a, List.mem_cons_self _ _, h⟩
      · exact Or.inr ⟨y, List.mem_cons_of_mem _ hy, hxy⟩
    · rintro (hx | ⟨y, hy, hxy⟩)
      · exact Or.inl (le_max_iff.2 (Or.inl hx))
      · rcases List.mem_cons.1 hy with rfl | hmem
        · exact Or.inl (le_max_iff.2 (Or.inr hxy))
        · exact Or.inr ⟨y, hmem, hxy⟩

theorem le_foldl_min_iff (l : List Int) (v x : Int) :
    x ≤ l.foldl min v ↔ (x ≤ v ∧ ∀ y ∈ l, x ≤ y) := by
  induction l generalizing v with
  | nil => simp
  | cons a as ih =>
    rw [List.foldl_cons, ih]
    constructor
    · rintro ⟨hva, hall⟩
      rw [le_min_iff] at hva
      refine ⟨hva.1, fun y hy => ?_⟩
      rcases List.mem_cons.1 hy with rfl | hmem
      · exact hva.2
      · exact hall y hmem
    · rintro ⟨hv, hall⟩
      exact ⟨le_min_iff.2 ⟨hv, hall a (List.mem_cons_self _ _)⟩,
        fun y hy => hall y (List.mem_cons_of_mem _ hy)⟩

theorem foldl_min_le_iff (l : List Int) (v x : Int) :
    l.foldl min v ≤ x ↔ (v ≤ x ∨ ∃ y ∈ l, y ≤ x) := by
  induction l generalizing v with
  | nil => simp
  | cons a as ih =>
    rw [List.foldl_cons, ih]
    constructor
    · rintro (hx | ⟨y, hy, hxy⟩)
      · rcases min_le_iff.1 hx with h | h
        · exact Or.inl h
        · exact Or.inr ⟨a, List.mem_cons_self _ _, h⟩
      · exact Or.inr ⟨y, List.mem_cons_of_mem _ hy, hxy⟩
    · rintro (hx | ⟨y, hy, hxy⟩)
      · exact Or.inl (min_le_iff.2 (Or.inl hx))
      · rcases List.mem_cons.1 hy with rfl | hmem
        · exact Or.inl (min_le_iff.2 (Or.inr hxy))
        · exact Or.inr ⟨y, hmem, hxy⟩

theorem scoresBoundedList_mem : ∀ {cs : List GTree}, scoresBoundedList cs = true →
    ∀ {c : GTree}, c ∈ cs → scoresBounded c = true := by
  intro cs
  induction cs with
  | nil => intro _ c hc; simp at hc
  | cons a as ih =>
    intro h c hc
    rw [scoresBoundedList] at h
    rw [Bool.and_eq_true] at h
    rcases List.mem_cons.1 hc with rfl | hmem
    · exact h.1
    · exact ih h.2 hmem

theorem scoresBounded_destruct {t : GTree} (h : scoresBounded t = true) :
    isizeMIN < t.score ∧ t.score < isizeMAX ∧ scoresBoundedList t.children = true := by
  cases t with
  | node s cs =>
    rw [scoresBounded] at h
    simp only [Bool.and_eq_true, decide_eq_true_eq] at h
    exact ⟨h.1.1, h.1.2, h.2⟩

theorem fullMinimax_bounds (d : Nat) : ∀ (t : GTree) (m : Bool), scoresBounded t = true →
    isizeMIN < fullMinimax d t m ∧ fullMinimax d t m < isizeMAX := by
  induction d with
  | zero =>
    intro t m h
    rw [fullMinimax]
    exact ⟨(scoresBounded_destruct h).1, (scoresBounded_destruct h).2.1⟩
  | succ d ih =>
    intro t m h
    obtain ⟨h1, h2, h3⟩ := scoresBounded_destruct h
    rw [fullMinimax]
    cases hc : t.children with
    | nil => exact ⟨h1, h2⟩
    | cons c cs =>
      rw [hc] at h3
      have hcb : scoresBounded c = true := scoresBoundedList_mem h3 (List.mem_cons_self _ _)
      have hc0 := ih c (!m) hcb
      have hmem : ∀ y ∈ cs.map fun c' => fullMinimax d c' (!m),
          isizeMIN < y ∧ y < isizeMAX := by
        intro y hy
        obtain ⟨c', hc', rfl⟩ := List.mem_map.1 hy
        exact ih c' (!m) (scoresBoundedList_mem h3 (List.mem_cons_of_mem _ hc'))
      cases m with
      | true =>
        simp only []
        rw [if_pos trivial]
        constructor
        · have : fullMinimax d c (!true) ≤ (cs.map fun c' => fullMinimax d c' (!true)).foldl
              max (fullMinimax d c (!true)) :=
            (le_foldl_max_iff _ _ _).2 (Or.inl le_rfl)
          omega
        · have : (cs.map fun c' => fullMinimax d c' (!true)).foldl
              max (fullMinimax d c (!true)) ≤ isizeMAX - 1 :=
            (foldl_max_le_iff _ _ _).2 ⟨by omega, fun y hy => by have := hmem y hy; omega⟩
          omega
      | false =>
        simp only []
        rw [if_neg Bool.false_ne_true]
        constructor
        · have : isizeMIN + 1 ≤ (cs.map fun c' => fullMinimax d c' (!false)).foldl
              min (fullMinimax d c (!false)) :=
            (le_foldl_min_iff _ _ _).2 ⟨by omega, fun y hy => by have := hmem y hy; omega⟩
          omega
        · have : (cs.map fun c' => fullMinimax d c' (!false)).foldl
              min (fullMinimax d c (!false)) ≤ fullMinimax d c (!false) :=
            (foldl_min_le_iff _ _ _).2 (Or.inl le_rfl)
          omega

/-- Correctness of the maximizing pruning loop, relative to the true running
maximum: exact inside the window, a sound bound outside (fail-soft).  `E` is
the recursive evaluation of a child and `F` its true (unpruned) value. -/
theorem abGo_max_spec (E : GTree → Int → Int → Int) (F : GTree → Int) (beta : Int)
    (hEF : ∀ c alpha, scoresBounded c = true → isizeMIN ≤ alpha → alpha < beta →
      ((F c ≤ alpha → E c alpha beta ≤ alpha ∧ F c ≤ E c alpha beta) ∧
       (beta ≤ F c → beta ≤ E c alpha beta ∧ E c alpha beta ≤ F c) ∧
       (alpha < F c → F c < beta → E c alpha beta = F c))) :
    ∀ (cs : List GTree) (v alpha : Int),
      scoresBoundedList cs = true → isizeMIN ≤ alpha → alpha < beta → v ≤ alpha →
      (((cs.map F).foldl max v ≤ alpha →
          abGo E true cs v alpha beta ≤ alpha ∧
          (cs.map F).foldl max v ≤ abGo E true cs v alpha beta) ∧
       (beta ≤ (cs.map F).foldl max v →
          beta ≤ abGo E true cs v alpha beta ∧
          abGo E true cs v alpha beta ≤ (cs.map F).foldl max v) ∧
       (alpha < (cs.map F).foldl max v → (cs.map F).foldl max v < beta →
          abGo E true cs v alpha beta = (cs.map F).foldl max v)) := by
  intro cs
  induction cs with
  | nil =>
    intro v alpha hb hMIN hab hva
    simp only [List.map_nil, List.foldl_nil, abGo]
    exact ⟨fun _ => ⟨hva, le_rfl⟩, fun h => absurd h (by omega), fun h _ => absurd h (by omega)⟩
  | cons c cs ih =>
    intro v alpha hb hMIN hab hva
    rw [scoresBoundedList, Bool.and_eq_true] at hb
    obtain ⟨hcb, hcsb⟩ := hb
    rw [List.map_cons, List.foldl_cons]
    have habgo : abGo E true (c :: cs) v alpha beta =
        (if beta ≤ max alpha (max v (E c alpha beta)) then max v (E c alpha beta)
         else abGo E true cs (max v (E c alpha beta))
           (max alpha (max v (E c alpha beta))) beta) := rfl
    rw [habgo]
    set s := E c alpha beta with hsdef
    rcases le_or_lt (F c) alpha with hFc | hFc
    · -- the child fails low
      obtain ⟨hs1, hs2⟩ := (hEF c alpha hcb hMIN hab).1 hFc
      have hva' : max v s ≤ alpha := by omega
      have hnp : ¬ beta ≤ max alpha (max v s) := by omega
      rw [if_neg hnp]
      have ha'eq : max alpha (max v s) = alpha := by omega
      rw [ha'eq]
      obtain ⟨ih1, ih2, ih3⟩ := ih (max v s) alpha hcsb hMIN hab hva'
      have hMM' : (cs.map F).foldl max (max v (F c)) ≤ (cs.map F).foldl max (max v s) := by
        apply (foldl_max_le_iff _ _ _).2
        have hself : max v s ≤ (cs.map F).foldl max (max v s) :=
          (le_foldl_max_iff _ _ _).2 (Or.inl le_rfl)
        exact ⟨by omega, fun y hy => (le_foldl_max_iff _ _ _).2 (Or.inr ⟨y, hy, le_rfl⟩)⟩
      refine ⟨fun hM => ?_, fun hM => ?_, fun hMa hMb => ?_⟩
      · obtain ⟨hMa, hMall⟩ := (foldl_max_le_iff _ _ _).1 hM
        have hM'a : (cs.map F).foldl max (max v s) ≤ alpha :=
          (foldl_max_le_iff _ _ _).2 ⟨by omega, hMall⟩
        obtain ⟨r1, r2⟩ := ih1 hM'a
        exact ⟨r1, le_trans hMM' r2⟩
      · have hM'b : beta ≤ (cs.map F).foldl max (max v s) := by
          rcases (le_foldl_max_iff _ _ _).1 hM with hinit | ⟨y, hy, hby⟩
          · omega
          · exact (le_foldl_max_iff _ _ _).2 (Or.inr ⟨y, hy, hby⟩)
        obtain ⟨r1, r2⟩ := ih2 hM'b
        refine ⟨r1, le_trans r2 ?_⟩
        apply (foldl_max_le_iff _ _ _).2
        have hMself : beta ≤ (cs.map F).foldl max (max v (F c)) := hM
        refine ⟨by omega, fun y hy => (le_foldl_max_iff _ _ _).2 (Or.inr ⟨y, hy, le_rfl⟩)⟩
      · have hM'M : (cs.map F).foldl max (max v s) ≤ (cs.map F).foldl max (max v (F c)) := by
          apply (foldl_max_le_iff _ _ _).2
          refine ⟨by omega, fun y hy => (le_foldl_max_iff _ _ _).2 (Or.inr ⟨y, hy, le_rfl⟩)⟩
        have hMeq : (cs.map F).foldl max (max v s) = (cs.map F).foldl max (max v (F c)) :=
          le_antisymm hM'M hMM'
        rw [← hMeq]
        exact ih3 (by omega) (by omega)
    · rcases lt_or_le (F c) beta with hFb | hFb
      · -- the child's true value lies inside the window: exact evaluation
        have hsEq : s = F c := (hEF c alpha hcb hMIN hab).2.2 hFc hFb
        have hnp : ¬ beta ≤ max alpha (max v s) := by omega
        rw [if_neg hnp]
        have ha' : max alpha (max v s) = F c := by omega
        have hv' : max v s = F c := by omega
        rw [ha', hv']
        have hMinit : max v (F c) = F c := by omega
        rw [hMinit]
        obtain ⟨ih1, ih2, ih3⟩ := ih (F c) (F c) hcsb (by omega) (by omega) le_rfl
        have hFcM : F c ≤ (cs.map F).foldl max (F c) :=
          (le_foldl_max_iff _ _ _).2 (Or.inl le_rfl)
        refine ⟨fun hM => absurd hM (by omega), fun hM => ih2 hM, fun hMa hMb => ?_⟩
        rcases lt_or_le (F c) ((cs.map F).foldl max (F c)) with hlt | hle
        · exact ih3 hlt hMb
        · obtain ⟨r1, r2⟩ := ih1 hle
          omega
      · -- the child fails high: cutoff
        obtain ⟨hs1, hs2⟩ := (hEF c alpha hcb hMIN hab).2.1 hFb
        have hyes : beta ≤ max alpha (max v s) := by omega
        rw [if_pos hyes]
        have hFcM : F c ≤ (cs.map F).foldl max (max v (F c)) :=
          (le_foldl_max_iff _ _ _).2 (Or.inl (by omega))
        exact ⟨fun hM => absurd hM (by omega), fun _ => ⟨by omega, by omega⟩,
          fun hMa hMb => absurd hMb (by omega)⟩

/-- Correctness of the minimizing pruning loop (mirror of `abGo_max_spec`). -/
theorem abGo_min_spec (E : GTree → Int → Int → Int) (F : GTree → Int) (alpha : Int)
    (hEF : ∀ c beta, scoresBounded c = true → beta ≤ isizeMAX → alpha < beta →
      ((F c ≤ alpha → E c alpha beta ≤ alpha ∧ F c ≤ E c alpha beta) ∧
       (beta ≤ F c → beta ≤ E c alpha beta ∧ E c alpha beta ≤ F c) ∧
       (alpha < F c → F c < beta → E c alpha beta = F c))) :
    ∀ (cs : List GTree) (v beta : Int),
      scoresBoundedList cs = true → beta ≤ isizeMAX → alpha < beta → beta ≤ v →
      (((cs.map F).foldl min v ≤ alpha →
          abGo E false cs v alpha beta ≤ alpha ∧
          (cs.map F).foldl min v ≤ abGo E false cs v alpha beta) ∧
       (beta ≤ (cs.map F).foldl min v →
          beta ≤ abGo E false cs v alpha beta ∧
          abGo E false cs v alpha beta ≤ (cs.map F).foldl min v) ∧
       (alpha < (cs.map F).foldl min v → (cs.map F).foldl min v < beta →
          abGo E false cs v alpha beta = (cs.map F).foldl min v)) := by
  intro cs
  induction cs with
  | nil =>
    intro v beta hb hMAX hab hbv
    simp only [List.map_nil, List.foldl_nil, abGo]
    exact ⟨fun h => absurd h (by omega), fun _ => ⟨hbv, le_rfl⟩, fun _ h => absurd h (by omega)⟩
  | cons c cs ih =>
    intro v beta hb hMAX hab hbv
    rw [scoresBoundedList, Bool.and_eq_true] at hb
    obtain ⟨hcb, hcsb⟩ := hb
    rw [List.map_cons, List.foldl_cons]
    have habgo : abGo E false (c :: cs) v alpha beta =
        (if min beta (min v (E c alpha beta)) ≤ alpha then min v (E c alpha beta)
         else abGo E false cs (min v (E c alpha beta)) alpha
           (min beta (min v (E c alpha beta)))) := rfl
    rw [habgo]
    set s := E c alpha beta with hsdef
    rcases le_or_lt beta (F c) with hFb | hFb
    · -- the child fails high
      obtain ⟨hs1, hs2⟩ := (hEF c beta hcb hMAX hab).2.1 hFb
      have hbv' : beta ≤ min v s := by omega
      have hnp : ¬ min beta (min v s) ≤ alpha := by omega
      rw [if_neg hnp]
      have hb'eq : min beta (min v s) = beta := by omega
      rw [hb'eq]
      obtain ⟨ih1, ih2, ih3⟩ := ih (min v s) beta hcsb hMAX hab hbv'
      have hM'M : (cs.map F).foldl min (min v s) ≤ (cs.map F).foldl min (min v (F c)) := by
        apply (le_foldl_min_iff _ _ _).2
        have hself : (cs.map F).foldl min (min v s) ≤ min v s :=
          (foldl_min_le_iff _ _ _).2 (Or.inl le_rfl)
        exact ⟨by omega, fun y hy => (foldl_min_le_iff _ _ _).2 (Or.inr ⟨y, hy, le_rfl⟩)⟩
      refine ⟨fun hM => ?_, fun hM => ?_, fun hMa hMb => ?_⟩
      · have hM'a : (cs.map F).foldl min (min v s) ≤ alpha := by
          rcases (foldl_min_le_iff _ _ _).1 hM with hinit | ⟨y, hy, hya⟩
          · omega
          · exact (foldl_min_le_iff _ _ _).2 (Or.inr ⟨y, hy, hya⟩)
        obtain ⟨r1, r2⟩ := ih1 hM'a
        refine ⟨r1, le_trans ?_ r2⟩
        apply (le_foldl_min_iff _ _ _).2
        have hMinit : (cs.map F).foldl min (min v (F c)) ≤ min v (F c) :=
          (foldl_min_le_iff _ _ _).2 (Or.inl le_rfl)
        refine ⟨by omega, fun y hy => (foldl_min_le_iff _ _ _).2 (Or.inr ⟨y, hy, le_rfl⟩)⟩
      · obtain ⟨hMb', hMall⟩ := (le_foldl_min_iff _ _ _).1 hM
        have hM'b : beta ≤ (cs.map F).foldl min (min v s) :=
          (le_foldl_min_iff _ _ _).2 ⟨by omega, hMall⟩
        obtain ⟨r1, r2⟩ := ih2 hM'b
        exact ⟨r1, le_trans r2 hM'M⟩
      · have hMM' : (cs.map F).foldl min (min v (F c)) ≤ (cs.map F).foldl min (min v s) := by
          apply (le_foldl_min_iff _ _ _).2
          have hMinit : (cs.map F).foldl min (min v (F c)) ≤ min v (F c) :=
            (foldl_min_le_iff _ _ _).2 (Or.inl le_rfl)
          refine ⟨by omega, fun y hy => (foldl_min_le_iff _ _ _).2 (Or.inr ⟨y, hy, le_rfl⟩)⟩
        have hMeq : (cs.map F).foldl min (min v s) = (cs.map F).foldl min (min v (F c)) :=
          le_antisymm hM'M hMM'
        rw [← hMeq]
        exact ih3 (by omega) (by omega)
    · rcases lt_or_le alpha (F c) with hFa | hFa
      · -- the child's true value lies inside the window: exact evaluation
        have hsEq : s = F c := (hEF c beta hcb hMAX hab).2.2 hFa hFb
        have hnp : ¬ min beta (min v s) ≤ alpha := by omega
        rw [if_neg hnp]
        have hb' : min beta (min v s) = F c := by omega
        have hv' : min v s = F c := by omega
        rw [hb', hv']
        have hMinit : min v (F c) = F c := by omega
        rw [hMinit]
        obtain ⟨ih1, ih2, ih3⟩ := ih (F c) (F c) hcsb (by omega) (by omega) le_rfl
        have hFcM : (cs.map F).foldl min (F c) ≤ F c :=
          (foldl_min_le_iff _ _ _).2 (Or.inl le_rfl)
        refine ⟨fun hM => ih1 hM, fun hM => absurd hM (by omega), fun hMa hMb => ?_⟩
        rcases lt_or_le ((cs.map F).foldl min (F c)) (F c) with hlt | hle
        · exact ih3 hMa hlt
        · obtain ⟨r1, r2⟩ := ih2 hle
          omega
      · -- the child fails low: cutoff
        obtain ⟨hs1, hs2⟩ := (hEF c beta hcb hMAX hab).1 hFa
        have hyes : min beta (min v s) ≤ alpha := by omega
        rw [if_pos hyes]
        have hFcM : (cs.map F).foldl min (min v (F c)) ≤ F c :=
          (foldl_min_le_iff _ _ _).2 (Or.inl (by omega))
        exact ⟨fun _ => ⟨by omega, by omega⟩, fun hM => absurd hM (by omega),
          fun hMa _ => absurd hMa (by omega)⟩

/-- Knuth-Moore correctness of `minmax_score` with respect to the unpruned
minimax value, for any window inside `[isize::MIN, isize::MAX]`: a fail-soft
bound outside the window, the exact value inside. -/
theorem minmaxScore_km (d : Nat) :
    ∀ (t : GTree) (alpha beta : Int) (maximizing : Bool),
      scoresBounded t = true → isizeMIN ≤ alpha → beta ≤ isizeMAX → alpha < beta →
      ((fullMinimax d t maximizing ≤ alpha →
          minmaxScore d t alpha beta maximizing ≤ alpha ∧
          fullMinimax d t maximizing ≤ minmaxScore d t alpha beta maximizing) ∧
       (beta ≤ fullMinimax d t maximizing →
          beta ≤ minmaxScore d t alpha beta maximizing ∧
          minmaxScore d t alpha beta maximizing ≤ fullMinimax d t maximizing) ∧
       (alpha < fullMinimax d t maximizing → fullMinimax d t maximizing < beta →
          minmaxScore d t alpha beta maximizing = fullMinimax d t maximizing)) := by
  induction d with
  | zero =>
    intro t alpha beta m hb hMIN hMAX hab
    rw [minmaxScore, fullMinimax]
    exact ⟨fun h => ⟨h, le_rfl⟩, fun h => ⟨h, le_rfl⟩, fun _ _ => rfl⟩
  | succ d ih =>
    intro t alpha beta m hb hMIN hMAX hab
    obtain ⟨hsc1, hsc2, hchil⟩ := scoresBounded_destruct hb
    rw [minmaxScore, fullMinimax]
    cases hc : t.children with
    | nil =>
      exact ⟨fun h => ⟨h, le_rfl⟩, fun h => ⟨h, le_rfl⟩, fun _ _ => rfl⟩
    | cons c cs =>
      rw [hc] at hchil
      have hcb : scoresBounded c = true := scoresBoundedList_mem hchil (List.mem_cons_self _ _)
      cases m with
      | true =>
        simp only []
        rw [if_pos trivial, if_pos trivial]
        have hspec := abGo_max_spec (fun c' a b => minmaxScore d c' a b (!true))
          (fun c' => fullMinimax d c' (!true)) beta
          (fun c' alpha' hcb' hMIN' hab' => ih c' alpha' beta (!true) hcb' hMIN' hMAX hab')
          (c :: cs) isizeMIN alpha hchil hMIN hab hMIN
        rw [List.map_cons, List.foldl_cons] at hspec
        have hFcb := fullMinimax_bounds d c (!true) hcb
        have hinit : max isizeMIN (fullMinimax d c (!true)) = fullMinimax d c (!true) := by
          have := hFcb.1
          omega
        rw [hinit] at hspec
        exact hspec
      | false =>
        simp only []
        rw [if_neg Bool.false_ne_true, if_neg Bool.false_ne_true]
        have hspec := abGo_min_spec (fun c' a b => minmaxScore d c' a b (!false))
          (fun c' => fullMinimax d c' (!false)) alpha
          (fun c' beta' hcb' hMAX' hab' => ih c' alpha beta' (!false) hcb' hMIN hMAX' hab')
          (c :: cs) isizeMAX beta hchil hMAX hab hMAX
        rw [List.map_cons, List.foldl_cons] at hspec
        have hFcb := fullMinimax_bounds d c (!false) hcb
        have hinit : min isizeMAX (fullMinimax d c (!false)) = fullMinimax d c (!false) := by
          have := hFcb.2
          omega
        rw [hinit] at hspec
        exact hspec

/-- C2: with the full window `(isize::MIN, isize::MAX)`, alpha-beta pruned
`minmax_score` returns exactly the unpruned full minimax value of the same
tree (for every tree whose static scores avoid the two extreme sentinels, as
all engine-built trees do). -/
theorem minmax_alphabeta_equals_full (d : Nat) (t : GTree) (maximizing : Bool)
    (hb : scoresBounded t = true) :
    minmaxScore d t isizeMIN isizeMAX maximizing = fullMinimax d t maximizing := by
  have hbnd := fullMinimax_bounds d t maximizing hb
  have hwin : isizeMIN < isizeMAX := by
    rw [isizeMIN, isizeMAX]
    norm_num
  exact (minmaxScore_km d t isizeMIN isizeMAX maximizing hb le_rfl le_rfl hwin).2.2
    hbnd.1 hbnd.2

/-- Witness for C2 on a small concrete tree (root with two leaves, scores
3 and 5, depth 2, maximizing). -/
theorem minmax_alphabeta_equals_full_witness :
    minmaxScore 2 (GTree.node 0 [GTree.node 3 [], GTree.node 5 []])
      isizeMIN isizeMAX true
      = fullMinimax 2 (GTree.node 0 [GTree.node 3 [], GTree.node 5 []]) true :=
  minmax_alphabeta_equals_full 2 (GTree.node 0 [GTree.node 3 [], GTree.node 5 []]) true
    (by decide)

/-! ### Final move extraction

`MCTSGeneric::choose_final_move` (ai/mcts.rs) and `MinMax::best_move`
(minmax.rs) both scan the root edges, keeping a running best score and a
candidate vector, then index the vector with `(random() * len as f32).floor()
as usize`.  The scans are modelled over the list of `(edge payload, score)`
pairs in edge-iteration order. -/

/-- The candidate-collection loop of `MCTSGeneric::choose_final_move`: a
strictly better visit count resets the vector, an equal one is pushed — the
equality test is an `else if`, so a strict improvement is pushed once. -/
def mctsBestMoves {α : Type} : List (α × Nat) → Nat → List α → List α
  | [], _, best => best
  | (a, visits) :: rest, best_score, best =>
    if best_score < visits then mctsBestMoves rest visits [a]
    else if visits = best_score then mctsBestMoves rest best_score (best ++ [a])
    else mctsBestMoves rest best_score best

/-- Rust `choose_final_move` starts its scan with `best_score = 0` and an empty
candidate vector. -/
def mctsCandidates {α : Type} (moves : List (α × Nat)) : List α :=
  mctsBestMoves moves 0 []

/-- The candidate-collection loop of `MinMax::best_move` (minmax.rs): here the
equality test is a separate `if`, not an `else if`, so a strict improvement
(`best_score = minmax; best_moves_found = vec![m]`) falls through to
`minmax == best_score`, which now holds, and pushes the same move a second
time. -/
def minmaxBestMoves {α : Type} : List (α × Int) → Int → List α → List α
  | [], _, best => best
  | (a, score) :: rest, best_score, best =>
    if best_score < score then minmaxBestMoves rest score [a, a]
    else if score = best_score then minmaxBestMoves rest best_score (best ++ [a])
    else minmaxBestMoves rest best_score best

/-- Rust `best_move` starts its scan with `best_score = isize::MIN` and an empty
candidate vector. -/
def minmaxCandidates {α : Type} (moves : List (α × Int)) : List α :=
  minmaxBestMoves moves isizeMIN []

/-- Rust `cands[(random * cands.len() as f32).floor() as usize]`, with the host
random value `r ∈ [0, 1)` modelled as a rational; `none` models the index
panic (in particular on an empty candidate vector). -/
def pickUniform {α : Type} (r : ℚ) (cands : List α) : Option α :=
  cands.get? (Int.toNat ⌊r * (cands.length : ℚ)⌋)

/-- Rust `MCTSGeneric::choose_final_move`, given the root's outgoing edges paired
with their target nodes' visit counts, in edge-iteration order. -/
def chooseFinalMove {α : Type} (r : ℚ) (moves : List (α × Nat)) : Option α :=
  pickUniform r (mctsCandidates moves)

/-- Exact characterization of the MCTS candidate scan: starting from
`best_score = bs` and accumulator `best`, the result keeps `best` only when no
later score exceeds `bs`, followed by exactly the entries attaining the
running maximum. -/
theorem nat_le_foldl_max (l : List Nat) (v : Nat) : v ≤ l.foldl max v := by
  induction l generalizing v with
  | nil => simp
  | cons a as ih =>
    rw [List.foldl_cons]
    exact le_trans (le_max_left _ _) (ih _)

theorem mctsBestMoves_spec {α : Type} :
    ∀ (moves : List (α × Nat)) (bs : Nat) (best : List α),
      mctsBestMoves moves bs best =
        (if bs = (moves.map Prod.snd).foldl max bs then best else []) ++
          (moves.filter fun e => e.2 = (moves.map Prod.snd).foldl max bs).map
            Prod.fst := by
  intro moves
  induction moves with
  | nil =>
    intro bs best
    simp [mctsBestMoves]
  | cons e rest ih =>
    intro bs best
    obtain ⟨a, v⟩ := e
    rw [List.map_cons, List.foldl_cons, List.filter_cons, mctsBestMoves]
    rcases Nat.lt_trichotomy bs v with hlt | heq | hgt
    · rw [if_pos hlt]
      have hmax : max bs v = v := by omega
      rw [hmax]
      have hvM : v ≤ (rest.map Prod.snd).foldl max v := nat_le_foldl_max _ _
      rw [ih v [a]]
      rw [if_neg (show ¬ bs = (rest.map Prod.snd).foldl max v by omega)]
      by_cases hv : v = (rest.map Prod.snd).foldl max v
      · rw [if_pos hv, if_pos (decide_eq_true hv)]
        simp
      · rw [if_neg hv, if_neg (by simpa using hv)]
    · rw [if_neg (by omega), if_pos (by omega)]
      have hmax : max bs v = bs := by omega
      rw [hmax, ih bs (best ++ [a])]
      by_cases hb : bs = (rest.map Prod.snd).foldl max bs
      · rw [if_pos hb, if_pos hb,
          if_pos (decide_eq_true (show v = (rest.map Prod.snd).foldl max bs by omega))]
        simp
      · rw [if_neg hb, if_neg hb,
          if_neg (by simpa using (show ¬ v = (rest.map Prod.snd).foldl max bs by omega))]
    · rw [if_neg (by omega), if_neg (by omega)]
      have hmax : max bs v = bs := by omega
      rw [hmax, ih bs best]
      have hbM : bs ≤ (rest.map Prod.snd).foldl max bs := nat_le_foldl_max _ _
      have hvne : ¬ v = (rest.map Prod.snd).foldl max bs := by omega
      simp [hvne]

/-- Membership characterization of the minimax candidate scan: starting from
`best_score = bs`, the final vector's members are the accumulator (when nothing
exceeded `bs`) together with exactly the moves attaining the running maximum. -/
theorem minmaxBestMoves_mem {α : Type} :
    ∀ (moves : List (α × Int)) (bs : Int) (best : List α) (m : α),
      (m ∈ minmaxBestMoves moves bs best ↔
        (((moves.map Prod.snd).foldl max bs = bs ∧ m ∈ best) ∨
          ∃ s, (m, s) ∈ moves ∧ s = (moves.map Prod.snd).foldl max bs)) := by
  intro moves
  induction moves with
  | nil =>
    intro bs best m
    simp [minmaxBestMoves]
  | cons e rest ih =>
    intro bs best m
    obtain ⟨a, v⟩ := e
    rw [List.map_cons, List.foldl_cons, minmaxBestMoves]
    have hM : max bs v ≤ (rest.map Prod.snd).foldl max (max bs v) :=
      (le_foldl_max_iff _ _ _).2 (Or.inl le_rfl)
    rcases lt_trichotomy bs v with hlt | heq | hgt
    · rw [if_pos hlt]
      have hmax : max bs v = v := by omega
      rw [hmax] at hM ⊢
      rw [ih v [a, a] m]
      constructor
      · rintro (⟨hMv, hmm⟩ | ⟨s, hs, hsM⟩)
        · have hma : m = a := by
            rcases List.mem_cons.1 hmm with h1 | h2
            · exact h1
            · simpa using h2
          subst hma
          exact Or.inr ⟨v, List.mem_cons_self _ _, by omega⟩
        · exact Or.inr ⟨s, List.mem_cons_of_mem _ hs, hsM⟩
      · rintro (⟨hMb, hmm⟩ | ⟨s, hs, hsM⟩)
        · exact absurd hMb (by omega)
        · rcases List.mem_cons.1 hs with heq2 | hmem
          · have hma : m = a := congrArg Prod.fst heq2
            have hsv : s = v := congrArg Prod.snd heq2
            refine Or.inl ⟨by omega, ?_⟩
            rw [hma]
            exact List.mem_cons_self _ _
          · exact Or.inr ⟨s, hmem, hsM⟩
    · rw [if_neg (by omega), if_pos (by omega)]
      have hmax : max bs v = bs := by omega
      rw [hmax] at hM ⊢
      rw [ih bs (best ++ [a]) m]
      constructor
      · rintro (⟨hMb, hmm⟩ | ⟨s, hs, hsM⟩)
        · rcases List.mem_append.1 hmm with h1 | h2
          · exact Or.inl ⟨hMb, h1⟩
          · have hma : m = a := by simpa using h2
            subst hma
            exact Or.inr ⟨v, List.mem_cons_self _ _, by omega⟩
        · exact Or.inr ⟨s, List.mem_cons_of_mem _ hs, hsM⟩
      · rintro (⟨hMb, hmm⟩ | ⟨s, hs, hsM⟩)
        · exact Or.inl ⟨hMb, List.mem_append_left _ hmm⟩
        · rcases List.mem_cons.1 hs with heq2 | hmem
          · have hma : m = a := congrArg Prod.fst heq2
            have hsv : s = v := congrArg Prod.snd heq2
            refine Or.inl ⟨by omega, List.mem_append_right _ ?_⟩
            rw [hma]
            exact List.mem_cons_self _ _
          · exact Or.inr ⟨s, hmem, hsM⟩
    · rw [if_neg (by omega), if_neg (by omega)]
      have hmax : max bs v = bs := by omega
      rw [hmax] at hM ⊢
      rw [ih bs best m]
      constructor
      · rintro (h | ⟨s, hs, hsM⟩)
        · exact Or.inl h
        · exact Or.inr ⟨s, List.mem_cons_of_mem _ hs, hsM⟩
      · rintro (h | ⟨s, hs, hsM⟩)
        · exact Or.inl h
        · rcases List.mem_cons.1 hs with heq2 | hmem
          · have hsv : s = v := congrArg Prod.snd heq2
            exact absurd hsM (by omega)
          · exact Or.inr ⟨s, hmem, hsM⟩

/-- C8 (amended): the candidate vector the final uniform draw indexes into is,
for the MCTS engine, exactly the list of maximal-visit root moves (once each);
for the minimax engine its members are exactly the maximal-score root moves,
but the first move achieving the final maximum appears twice, so "exactly
once" fails there (see the counterexample). -/
theorem final_move_candidates (α : Type) :
    (∀ moves : List (α × Nat),
      mctsCandidates moves =
        (moves.filter fun e => e.2 = (moves.map Prod.snd).foldl max 0).map Prod.fst) ∧
    (∀ (moves : List (α × Int)) (m : α),
      m ∈ minmaxCandidates moves ↔
        ∃ s, (m, s) ∈ moves ∧ s = (moves.map Prod.snd).foldl max isizeMIN) := by
  constructor
  · intro moves
    rw [mctsCandidates, mctsBestMoves_spec, ite_self, List.nil_append]
  · intro moves m
    rw [minmaxCandidates, minmaxBestMoves_mem]
    simp

/-- C8 counterexample: a single root move with minimax score 5 is the unique
maximal-score move, yet the minimax candidate vector contains it twice (the
strict-improvement branch pushes it and the non-exclusive equality test pushes
it again), so the uniform draw is not over a list holding every maximal move
exactly once. -/
theorem final_move_candidates_counterexample :
    minmaxCandidates [((0 : Nat), (5 : Int))] = [0, 0] ∧
    (minmaxCandidates [((0 : Nat), (5 : Int))]).count 0 = 2 := by
  constructor <;> decide

/-! ### MCTS with a zero time budget (difficulty 0) -/

/-- With difficulty 0 the budget is `0³ · 0.05 · 1000 = 0` ms; with a monotonic
clock `O::now() - start_time < 0.0` is false at the very first check, so the
`while` loop in `best_move` runs zero iterations and the freshly inserted root
(after `graph.clear()`) still has no outgoing edges when `choose_final_move`
runs. -/
def mctsRootEdgesZeroBudget : List ((Nat × Direction) × Nat) := []

/-- Rust `MCTS::best_move` (trivial policy) at difficulty 0: `choose_final_move`
over the empty root edge list; the result is the index panic (`none`),
whatever the host randomness returns. -/
def mctsBestMoveZeroBudget (r : ℚ) : Option (Nat × Direction) :=
  chooseFinalMove r mctsRootEdgesZeroBudget

/-- C4 (the code violates the claim): on the default board it is the engine
color's turn and legal moves exist, yet `best_move` with a 0 ms budget indexes
an empty candidate vector — `best_moves_found[(random * 0).floor()]` panics —
instead of returning a legal move. -/
theorem mcts_zero_budget_panics :
    defaultBoard.get_all_valid_directions_and_resulting_boards =
      some ((defaultBoard.get_all_valid_directions_and_resulting_boards).getD []) ∧
    ((defaultBoard.get_all_valid_directions_and_resulting_boards).getD []) ≠ [] ∧
    defaultBoard.next_player = some Color.Green ∧
    ∀ r : ℚ, mctsBestMoveZeroBudget r = none :=
  ⟨by decide, by decide, rfl, fun _ => rfl⟩

/-! ### MCTS selection (`MCTSGeneric::best_child`, ai/mcts.rs)

Each root-to-child edge is modelled as `(prior, visits, wins)`: the edge's
stored prior weight, the child node's visit count and its accumulated
`wins` score, listed in edge-iteration order.  The `f32` arithmetic is
modelled over `ℚ`, with the host float functions `f32::ln` and `f32::sqrt`
passed in as `fln` and `fsqrt` (the claims are settled at arguments where the
float operations are exact). -/

/-- The selection score the code computes for a visited child:
`exploit = child.wins / child.visits` (no negation) plus
`explore = prior * 1.414 * sqrt(ln(parent_visits) / child.visits)`, with the
prior forced to `1.0` for the trivial policy. -/
def uctScore (fln fsqrt : ℚ → ℚ) (parentVisits : Nat) (isTrivial : Bool)
    (e : ℚ × Nat × ℚ) : ℚ :=
  let prior := if isTrivial then 1 else e.1
  let exploit := e.2.2 / (e.2.1 : ℚ)
  let explore := prior * (1414 / 1000) * fsqrt (fln (parentVisits : ℚ) / (e.2.1 : ℚ))
  exploit + explore

/-- The selection score exactly as the specification phrases it, with the
exploitation term negated: `-child.accumulated_score / child.visits`
plus the same exploration term. -/
def specSelectionScore (fln fsqrt : ℚ → ℚ) (parentVisits : Nat) (isTrivial : Bool)
    (e : ℚ × Nat × ℚ) : ℚ :=
  let prior := if isTrivial then 1 else e.1
  let exploitNegated := -(e.2.2 / (e.2.1 : ℚ))
  let explore := prior * (1414 / 1000) * fsqrt (fln (parentVisits : ℚ) / (e.2.1 : ℚ))
  exploitNegated + explore

/-- The `for edge in ...` loop of `best_child`, tracking the current index,
the best index so far (initialized to the first edge) and `best_score`
(initialized to `0.0`); a zero-visit child is returned immediately. -/
def bestChildLoop (fln fsqrt : ℚ → ℚ) (pv : Nat) (triv : Bool) :
    List (ℚ × Nat × ℚ) → Nat → Nat → ℚ → Nat
  | [], _, besti, _ => besti
  | e :: rest, i, besti, bests =>
    if e.2.1 = 0 then i
    else
      if bests < uctScore fln fsqrt pv triv e then
        bestChildLoop fln fsqrt pv triv rest (i + 1) i (uctScore fln fsqrt pv triv e)
      else bestChildLoop fln fsqrt pv triv rest (i + 1) besti bests

/-- Rust `MCTSGeneric::best_child`, returning the index (in edge-iteration order)
of the selected child; `none` models the `.next().unwrap()` panic when the
node has no outgoing edges. -/
def best_child (fln fsqrt : ℚ → ℚ) (pv : Nat) (triv : Bool)
    (children : List (ℚ × Nat × ℚ)) : Option Nat :=
  match children with
  | [] => none
  | _ :: _ => some (bestChildLoop fln fsqrt pv triv children 0 0 0)

/-- Function `f32::ln` at the only argument the counterexample and witness use:
IEEE 754 gives `ln 1.0 = 0.0` exactly. -/
def flnOne : ℚ → ℚ := fun _ => 0

/-- Function `f32::sqrt` at the only argument the counterexample and witness use:
IEEE 754 gives `sqrt 0.0 = 0.0` exactly. -/
def fsqrtZero : ℚ → ℚ := fun _ => 0

/-- C3 counterexample: parent with 1 visit (so every exploration term is
`prior * 1.414 * sqrt(ln 1 / visits) = 0`), two children with 1 visit each and
wins 1 and 0.  The specification's negated-exploitation score is strictly
maximal at child 1, but `best_child` selects child 0: the code adds
`+wins/visits`, it does not negate. -/
theorem best_child_counterexample :
    best_child flnOne fsqrtZero 1 true [(1, 1, 1), (1, 1, 0)] = some 0 ∧
    specSelectionScore flnOne fsqrtZero 1 true ((1 : ℚ), (1 : Nat), (1 : ℚ)) <
      specSelectionScore flnOne fsqrtZero 1 true ((1 : ℚ), (1 : Nat), (0 : ℚ)) := by
  constructor
  · norm_num [best_child, bestChildLoop, uctScore, flnOne, fsqrtZero]
  · norm_num [specSelectionScore, flnOne, fsqrtZero]

/-- The loop returns the absolute index of the first zero-visit entry,
whatever the running best is. -/
theorem bestChildLoop_zero_visit (fln fsqrt : ℚ → ℚ) (pv : Nat) (triv : Bool) :
    ∀ (children : List (ℚ × Nat × ℚ)) (i besti : Nat) (bests : ℚ) (j : Nat)
      (e : ℚ × Nat × ℚ),
      children.get? j = some e → e.2.1 = 0 →
      (∀ j' e', j' < j → children.get? j' = some e' → e'.2.1 ≠ 0) →
      bestChildLoop fln fsqrt pv triv children i besti bests = i + j := by
  intro children
  induction children with
  | nil =>
    intro i besti bests j e hj
    simp at hj
  | cons c rest ih =>
    intro i besti bests j e hj h0 hfirst
    cases j with
    | zero =>
      have hec : e = c := by
        rw [List.get?_cons_zero] at hj
        exact (Option.some_injective _ hj).symm
      rw [bestChildLoop, if_pos (by rw [← hec]; exact h0)]
      omega
    | succ j' =>
      have hc0 : c.2.1 ≠ 0 := hfirst 0 c (by omega) (by simp)
      rw [bestChildLoop, if_neg hc0]
      have hshift : ∀ j'' e', j'' < j' → rest.get? j'' = some e' → e'.2.1 ≠ 0 := by
        intro j'' e' hlt he'
        exact hfirst (j'' + 1) e' (by omega) (by rw [List.get?_cons_succ]; exact he')
      rw [List.get?_cons_succ] at hj
      by_cases hb : bests < uctScore fln fsqrt pv triv c
      · rw [if_pos hb]
        have := ih (i + 1) i (uctScore fln fsqrt pv triv c) j' e hj h0 hshift
        omega
      · rw [if_neg hb]
        have := ih (i + 1) besti bests j' e hj h0 hshift
        omega

/-- The loop selects an index attaining the maximal score, provided every
child has been visited and the invariant holds that the best-so-far index
carries a score at least `best_score` (with `best_score = 0` and the first
child as the default this needs all scores nonnegative). -/
theorem bestChildLoop_max (fln fsqrt : ℚ → ℚ) (pv : Nat) (triv : Bool)
    (L : List (ℚ × Nat × ℚ)) (hall : ∀ e ∈ L, e.2.1 ≠ 0) :
    ∀ (rem : List (ℚ × Nat × ℚ)) (i besti : Nat) (bests : ℚ),
      rem = L.drop i →
      (∃ e, L.get? besti = some e ∧ bests ≤ uctScore fln fsqrt pv triv e) →
      (∀ j' e', j' < i → L.get? j' = some e' →
        uctScore fln fsqrt pv triv e' ≤ bests) →
      ∃ e, L.get? (bestChildLoop fln fsqrt pv triv rem i besti bests) = some e ∧
        ∀ e' ∈ L, uctScore fln fsqrt pv triv e' ≤ uctScore fln fsqrt pv triv e := by
  intro rem
  induction rem with
  | nil =>
    intro i besti bests hdrop hbest hprev
    obtain ⟨e, he, hbe⟩ := hbest
    rw [bestChildLoop]
    refine ⟨e, he, fun e' he' => ?_⟩
    obtain ⟨j', hj'⟩ := List.mem_iff_get?.1 he'
    have hlen : L.length ≤ i := by
      by_contra hcon
      have : L.drop i ≠ [] := by
        intro hnil
        rw [List.drop_eq_nil_iff_le] at hnil
        omega
      exact this hdrop.symm
    have hj'lt : j' < L.length := by
      rcases List.get?_eq_some.1 hj' with ⟨h', -⟩
      exact h'
    exact le_trans (hprev j' e' (by omega) hj') hbe
  | cons c rem' ih =>
    intro i besti bests hdrop hbest hprev
    have hci : L.get? i = some c := by
      have h0 := List.get?_drop L i 0
      rw [← hdrop, List.get?_cons_zero] at h0
      rw [Nat.add_zero] at h0
      exact h0.symm
    have hrem' : rem' = L.drop (i + 1) := by
      have hdd : L.drop (i + 1) = (L.drop i).drop 1 := by
        rw [List.drop_drop]
      rw [hdd, ← hdrop, List.drop_one, List.tail_cons]
    have hc0 : c.2.1 ≠ 0 := hall c (List.get?_mem hci)
    rw [bestChildLoop, if_neg hc0]
    by_cases hb : bests < uctScore fln fsqrt pv triv c
    · rw [if_pos hb]
      apply ih (i + 1) i (uctScore fln fsqrt pv triv c) hrem' ⟨c, hci, le_rfl⟩
      intro j' e' hj' he'
      rcases Nat.lt_or_ge j' i with hlt | hge
      · exact le_trans (hprev j' e' hlt he') (le_of_lt hb)
      · have hji : j' = i := by omega
        subst hji
        rw [hci] at he'
        rw [(Option.some_injective _ he').symm]
    · rw [if_neg hb]
      apply ih (i + 1) besti bests hrem' hbest
      intro j' e' hj' he'
      rcases Nat.lt_or_ge j' i with hlt | hge
      · exact hprev j' e' hlt he'
      · have hji : j' = i := by omega
        subst hji
        rw [hci] at he'
        rw [(Option.some_injective _ he').symm]
        exact not_lt.1 hb

/-- C3 (amended): `best_child` selects the first zero-visit child immediately
when one exists; otherwise (all children visited) it selects a child attaining
the maximal score `exploitation + exploration`, where the exploitation term is
`+child.wins / child.visits` — statistics are recorded from the perspective of
the player who moved into the child, with backpropagation complementing the
value (`1 - x`) per ply rather than negating it — and exploration is
`prior * 1.414 * sqrt(ln(parent.visits) / child.visits)` with `prior = 1.0`
for a trivial policy and the edge prior otherwise; maximality is guaranteed
when all scores are nonnegative (as for the trivial policy, whose values lie
in `[0, 1]`), since the scan starts from `best_score = 0` with the first child
as default. -/
theorem best_child_amended (fln fsqrt : ℚ → ℚ) (pv : Nat) (triv : Bool)
    (children : List (ℚ × Nat × ℚ)) :
    (∀ j e, children.get? j = some e → e.2.1 = 0 →
      (∀ j' e', j' < j → children.get? j' = some e' → e'.2.1 ≠ 0) →
      best_child fln fsqrt pv triv children = some j) ∧
    (children ≠ [] → (∀ e ∈ children, e.2.1 ≠ 0) →
      (∀ e ∈ children, 0 ≤ uctScore fln fsqrt pv triv e) →
      ∃ j e, best_child fln fsqrt pv triv children = some j ∧
        children.get? j = some e ∧
        ∀ e' ∈ children, uctScore fln fsqrt pv triv e' ≤ uctScore fln fsqrt pv triv e) := by
  constructor
  · intro j e hj h0 hfirst
    cases children with
    | nil => simp at hj
    | cons c rest =>
      rw [best_child]
      rw [bestChildLoop_zero_visit fln fsqrt pv triv (c :: rest) 0 0 0 j e hj h0 hfirst]
      rw [Nat.zero_add]
  · intro hne hall hnn
    cases children with
    | nil => exact absurd rfl hne
    | cons c rest =>
      obtain ⟨e, he, hmax⟩ := bestChildLoop_max fln fsqrt pv triv (c :: rest) hall
        (c :: rest) 0 0 0 rfl
        ⟨c, by simp, hnn c (List.mem_cons_self _ _)⟩
        (fun j' e' hj' _ => absurd hj' (by omega))
      exact ⟨bestChildLoop fln fsqrt pv triv (c :: rest) 0 0 0, e, rfl, he, hmax⟩

/-- Witness for the amended C3 at a concrete input: parent visits 1, trivial
policy, two visited children with wins 1 and 0; the selected child (index 0)
attains the maximal score. -/
theorem best_child_amended_witness :
    ∃ j e, best_child flnOne fsqrtZero 1 true [(1, 1, 1), (1, 1, 0)] = some j ∧
      [((1 : ℚ), (1 : Nat), (1 : ℚ)), (1, 1, 0)].get? j = some e ∧
      ∀ e' ∈ [((1 : ℚ), (1 : Nat), (1 : ℚ)), (1, 1, 0)],
        uctScore flnOne fsqrtZero 1 true e' ≤ uctScore flnOne fsqrtZero 1 true e :=
  (best_child_amended flnOne fsqrtZero 1 true [(1, 1, 1), (1, 1, 0)]).2 (by simp)
    (by decide)
    (by
      intro e he
      rcases List.mem_cons.1 he with rfl | he'
      · norm_num [uctScore, flnOne, fsqrtZero]
      · rcases List.mem_cons.1 he' with rfl | he''
        · norm_num [uctScore, flnOne, fsqrtZero]
        · simp at he'')

end Neutreeko
